import Mathlib

/-!
Verification development for the emmet CSS snippet module
(src/stylesheet/snippets.ts).

The module has three operations:

* createSnippet (key, value): classifies a definition string by the regex
  /^([a-z-]+)(?:\s*:\s*([^\n\r]+))?$/ and builds either a Raw snippet or a
  Property snippet whose value alternatives are parsed by the external
  css-abbreviation parser.
* getKeywords (snippet): worklist traversal over a Property snippet and its
  transitive dependencies, collecting keywords (Literal text or FunctionCall
  names), globally deduplicated by keyword text.
* nest (snippets): sorts the snippet array by key and, using a stack over
  the sorted Property snippets, attaches each longhand property to its
  closest shorthand ancestor by appending to the dependencies array.

JS object identity matters for getKeywords (the stack deduplicates by
identity) and for nest (dependencies arrays are mutated in place on shared
objects).  We therefore model the heap of CSSSnippetProperty objects as a
list of PropNode records; a dependency is a natural-number index into that
list.  Plain JS values (strings, the Raw snippets) are modelled by value
types.  Machine strings are modelled by Lean String; the keys and property
names handled by this module are ASCII, where Lean codepoint order, JS
UTF-16 code-unit order and byte order coincide.  Fallible JS code (thrown
exceptions) is modelled with Option: none is a thrown exception.
-/

namespace Emmet

/-- A value token produced by the external css-abbreviation parser.  The
module only inspects the Literal text and the FunctionCall name; every other
node kind (NumberValue, ColorValue, StringValue, Field) is OtherTok and the
arguments of a FunctionCall are never read, so they are not carried. -/
inductive ValueNode where
  | Literal (value : String)
  | FunctionCall (name : String)
  | OtherTok
deriving DecidableEq, Repr

/-- CSSValue from the external parser: a record whose value field is the
list of value tokens. -/
structure CSSValue where
  value : List ValueNode
deriving DecidableEq, Repr

/-- The data of one CSSSnippetProperty object on the JS heap.  The
dependencies field holds heap indices of other CSSSnippetProperty objects
(object references in JS). -/
structure PropNode where
  key : String
  property : String
  value : List (List CSSValue)
  dependencies : List Nat
deriving DecidableEq, Repr

/-- Default node used to total heap lookups; a wellformed heap access never
sees it. -/
def emptyNode : PropNode := { key := "", property := "", value := [], dependencies := [] }

/-- A CSSSnippet as it is passed around: a Raw snippet is a plain value, a
Property snippet is a reference to an object on the heap. -/
inductive SnippetRef where
  | Raw (key value : String)
  | Property (i : Nat)
deriving DecidableEq, Repr

/-- CSSKeywordRef: a keyword together with the index of the value
alternative that produced it. -/
structure CSSKeywordRef where
  keyword : String
  index : Nat
deriving DecidableEq, Repr

/-! ## Snippet builder (createSnippet, lines 34-56) -/

/-- Characters matched by the [a-z-] class of reProperty. -/
def isIdentChar (c : Char) : Bool :=
  c == '-' || ('a' ≤ c && c ≤ 'z')

/-- The whitespace class \s of JS regular expressions (also the set trimmed
by String.prototype.trim). -/
def isSpaceJS (c : Char) : Bool :=
  let n := c.toNat
  n == 9 || n == 10 || n == 11 || n == 12 || n == 13 || n == 32 || n == 160 ||
    n == 0x1680 || (0x2000 ≤ n && n ≤ 0x200a) || n == 0x2028 || n == 0x2029 ||
    n == 0x202f || n == 0x205f || n == 0x3000 || n == 0xfeff

/-- JS String.prototype.trim. -/
def trimJS (s : String) : String :=
  String.mk (((s.data.dropWhile isSpaceJS).reverse.dropWhile isSpaceJS).reverse)

/-- Matching of the tail after the colon against \s*([^\n\r]+)$ with the
greedy/backtracking semantics of the JS engine: the capture is the remainder
after the maximal run of whitespace, except that when the whole tail is
whitespace the engine backtracks one character so that the capture is the
last character (if it is not a line terminator). -/
def matchPayload (t : List Char) : Option (List Char) :=
  if t.isEmpty then none
  else
    let rem := t.dropWhile isSpaceJS
    if rem.isEmpty then
      -- the whole tail is whitespace: backtrack so that [^\n\r]+ can grab
      -- the final character, unless it is a newline
      match t.getLast? with
      | some c => if c == '\n' || c == '\r' then none else some [c]
      | none => none
    else
      if rem.any (fun c => c == '\n' || c == '\r') then none else some rem

/-- value.match(reProperty) for reProperty = /^([a-z-]+)(?:\s*:\s*([^\n\r]+))?$/.
Returns the two capture groups on a match: group 1 (the property name) and
group 2 (the value payload, absent when the optional group did not
participate).  Since ':' and whitespace are not in [a-z-], the identifier
capture is exactly the maximal leading run of [a-z-] characters. -/
def matchProperty (s : String) : Option (String × Option String) :=
  let ident := s.data.takeWhile isIdentChar
  let rest := s.data.dropWhile isIdentChar
  if ident.isEmpty then none
  else if rest.isEmpty then some (String.mk ident, none)
  else
    match rest.dropWhile isSpaceJS with
    | ':' :: t =>
      match matchPayload t with
      | some payload => some (String.mk ident, some (String.mk payload))
      | none => none
    | _ => none

/-- parseValue (line 162): trim the alternative and run the external parser.
The external parser is a parameter; none models a thrown parse error, which
the module does not catch. -/
def parseValue (pext : String → Option (List CSSValue)) (v : String) : Option (List CSSValue) :=
  pext (trimJS v)

/-- One CSSSnippet as returned by createSnippet (before any nesting): a heap
node value for the Property case. -/
inductive BuiltSnippet where
  | Raw (key value : String)
  | Property (node : PropNode)
deriving DecidableEq, Repr

/-- createSnippet (lines 40-56).  none models a thrown exception: either a
parse error propagated from the external parser, or the TypeError raised at
line 50 when the definition matches reProperty without the optional value
group, so that m[2] is undefined and m[2].split throws. -/
def createSnippet (pext : String → Option (List CSSValue)) (key value : String) :
    Option BuiltSnippet :=
  match matchProperty value with
  | some (ident, some payload) =>
    match (payload.splitOn "|").mapM (parseValue pext) with
    | some vals =>
      some (.Property { key := key, property := ident, value := vals, dependencies := [] })
    | none => none
  | some (_, none) => none
  | none => some (.Raw key value)

/-! ## Keyword extraction (getKeywords, lines 61-111) -/

/-- keywordsFromValue (lines 98-111): Literal tokens contribute their text,
FunctionCall tokens their name. -/
def keywordsOfToks : List ValueNode → List String
  | [] => []
  | .Literal s :: r => s :: keywordsOfToks r
  | .FunctionCall n :: r => n :: keywordsOfToks r
  | .OtherTok :: r => keywordsOfToks r

/-- keywordsFromValue over one value alternative (a CSSValue array). -/
def keywordsFromValue : List CSSValue → List String
  | [] => []
  | v :: rest => keywordsOfToks v.value ++ keywordsFromValue rest

/-- The inner keyword loop of getKeywords (lines 79-84): push each keyword
not yet in the lookup set, recording the current alternative index.  The
lookup set is modelled as a list with membership. -/
def addKw (index : Nat) : List String → List CSSKeywordRef × List String →
    List CSSKeywordRef × List String
  | [], st => st
  | kw :: rest, (result, lookup) =>
    if kw ∈ lookup then addKw index rest (result, lookup)
    else addKw index rest (result ++ [{ keyword := kw, index := index }], lookup ++ [kw])

/-- The alternative loop of getKeywords (lines 78-85), scanning
item.value[index] for index = idx, idx+1, ... -/
def scanAlts (idx : Nat) : List (List CSSValue) → List CSSKeywordRef × List String →
    List CSSKeywordRef × List String
  | [], st => st
  | alt :: rest, st => scanAlts (idx + 1) rest (addKw idx (keywordsFromValue alt) st)

/-- The dependency loop of getKeywords (lines 88-92): append each dependency
that is not already somewhere in the stack (identity check). -/
def pushDeps : List Nat → List Nat → List Nat
  | stack, [] => stack
  | stack, d :: rest => pushDeps (if d ∈ stack then stack else stack ++ [d]) rest

/-- The while loop of getKeywords (lines 72-93), with an explicit fuel that
bounds the number of iterations.  The registry reg is the heap of Property
objects; it is threaded through the recursion and returned, making visible
that the loop body never writes to it.  Returns (result, final stack, heap);
none means the fuel ran out before the cursor caught up with the stack. -/
def kwLoop (fuel : Nat) (reg : List PropNode) (stack : List Nat) (i : Nat)
    (st : List CSSKeywordRef × List String) :
    Option (List CSSKeywordRef × List Nat × List PropNode) :=
  match fuel with
  | 0 => if i < stack.length then none else some (st.1, stack, reg)
  | fuel + 1 =>
    if h : i < stack.length then
      let item := reg.getD (stack.get ⟨i, h⟩) emptyNode
      kwLoop fuel reg (pushDeps stack item.dependencies) (i + 1) (scanAlts 0 item.value st)
    else some (st.1, stack, reg)

/-- getKeywords (lines 61-96) on a snippet reference: only a Property
snippet seeds the stack.  Fuel reg.length + 1 suffices because the stack
holds pairwise distinct heap indices (plus possibly the seed). -/
def getKeywordsFull (reg : List PropNode) (s : SnippetRef) :
    Option (List CSSKeywordRef × List Nat × List PropNode) :=
  match s with
  | .Raw _ _ => kwLoop (reg.length + 1) reg [] 0 ([], [])
  | .Property i => kwLoop (reg.length + 1) reg [i] 0 ([], [])

/-- The keyword list returned by getKeywords. -/
def getKeywords (reg : List PropNode) (s : SnippetRef) : Option (List CSSKeywordRef) :=
  (getKeywordsFull reg s).map (fun t => t.1)

/-! ## Nesting (nest, lines 117-160) -/

/-- The key field read by the sort comparator (a.key / b.key). -/
def keyOf (reg : List PropNode) : SnippetRef → String
  | .Raw k _ => k
  | .Property i => (reg.getD i emptyNode).key

/-- Property name of the heap node at index i. -/
def propOf (reg : List PropNode) (i : Nat) : String :=
  (reg.getD i emptyNode).property

/-- Dependencies of the heap node at index i. -/
def depsOf (reg : List PropNode) (i : Nat) : List Nat :=
  (reg.getD i emptyNode).dependencies

/-- snippetsSort (lines 154-160): the three-way comparator on keys. -/
def snippetsSort (reg : List PropNode) (a b : SnippetRef) : Int :=
  if keyOf reg a = keyOf reg b then 0
  else if keyOf reg a < keyOf reg b then -1 else 1

/-- snippets.sort(snippetsSort): JS Array.prototype.sort is a stable sort
consistent with the comparator. -/
def sortSnippets (reg : List PropNode) (l : List SnippetRef) : List SnippetRef :=
  l.mergeSort (fun a b => decide (snippetsSort reg a b ≤ 0))

/-- cur.property.charCodeAt(i) === 45 (line 133).  charCodeAt on an index
past the end yields NaN, which compares unequal to 45. -/
def charCode45 (s : String) (i : Nat) : Bool :=
  match s.data.get? i with
  | some c => c.toNat == 45
  | none => false

/-- JS String.prototype.startsWith. -/
def jsStartsWith (s pre : String) : Bool :=
  s.data.take pre.data.length == pre.data

/-- The guard of lines 132-133: cur.property starts with prev.property and
the character right after that occurrence is a hyphen. -/
def isDepMatch (curProp prevProp : String) : Bool :=
  jsStartsWith curProp prevProp && charCode45 curProp prevProp.length

/-- prev.dependencies.push(cur) (line 134): in-place mutation of the heap
node at index prev. -/
def pushDep (reg : List PropNode) (prev cur : Nat) : List PropNode :=
  match reg.get? prev with
  | some n => reg.set prev { n with dependencies := n.dependencies ++ [cur] }
  | none => reg

/-- The while loop of lines 129-144 for one Property cur, over the ancestor
stack (top of stack first).  On a match the edge prev -> cur is recorded and
cur is pushed; otherwise the top is popped; an emptied stack receives cur as
a new root. -/
def nestAttach (reg : List PropNode) (cur : Nat) : List Nat → List PropNode × List Nat
  | [] => (reg, [cur])
  | prev :: rest =>
    if isDepMatch (propOf reg cur) (propOf reg prev) then
      (pushDep reg prev cur, cur :: prev :: rest)
    else nestAttach reg cur rest

/-- The for loop of lines 125-146 over the sorted Property snippets. -/
def nestProps (reg : List PropNode) : List Nat → List Nat → List PropNode × List Nat
  | [], stack => (reg, stack)
  | cur :: rest, stack =>
    let rs := nestAttach reg cur stack
    nestProps rs.1 rest rs.2

/-- snippets.filter(isProperty), keeping the heap index of each Property. -/
def propIndex : SnippetRef → Option Nat
  | .Property i => some i
  | .Raw _ _ => none

/-- nest (lines 117-149): sort by key, then link each longhand under its
closest shorthand.  Returns the updated heap and the sorted snippet list. -/
def nest (reg : List PropNode) (snippets : List SnippetRef) :
    List PropNode × List SnippetRef :=
  let sorted := sortSnippets reg snippets
  ((nestProps reg (sorted.filterMap propIndex) []).1, sorted)

/-- nest with the snippet array itself modelled as a mutable heap cell
(JS arrays are objects): heap is the store of arrays, arr the reference that
nest receives.  Line 118, snippets = snippets.sort(snippetsSort), sorts the
array in place through the reference and keeps the same reference, which is
what nest finally returns (line 148). -/
def nestInPlace (reg : List PropNode) (heap : List (List SnippetRef)) (arr : Nat) :
    List PropNode × List (List SnippetRef) × Nat :=
  let sorted := sortSnippets reg (heap.getD arr [])
  let heap1 := heap.set arr sorted
  ((nestProps reg (sorted.filterMap propIndex) []).1, heap1, arr)

/-! ## Dependency graph notions -/

/-- One dependency edge on the heap: node j is listed in the dependencies of
node i. -/
def EdgeR (reg : List PropNode) (i j : Nat) : Prop := j ∈ depsOf reg i

/-- Reachability along dependency edges (reflexive-transitive closure). -/
def ReachR (reg : List PropNode) : Nat → Nat → Prop := Relation.ReflTransGen (EdgeR reg)

/-- Heap wellformedness: every dependency reference points at an object of
the heap. -/
def WFreg (reg : List PropNode) : Prop :=
  ∀ n ∈ reg, ∀ d ∈ n.dependencies, d < reg.length

instance (reg : List PropNode) : Decidable (WFreg reg) := by
  unfold WFreg; infer_instance

/-- All keywords of a list of value alternatives, in scan order. -/
def altsKeywords : List (List CSSValue) → List String
  | [] => []
  | a :: r => keywordsFromValue a ++ altsKeywords r

/-- All keywords contributed by the node at heap index j. -/
def nodeKeywords (reg : List PropNode) (j : Nat) : List String :=
  altsKeywords (reg.getD j emptyNode).value

/-- Invariant tying the lookup set to the result list inside getKeywords:
the lookup set holds exactly the keywords already in the result, and the
result never repeats a keyword. -/
def kwSetInv (st : List CSSKeywordRef × List String) : Prop :=
  (∀ kw, kw ∈ st.2 ↔ ∃ r ∈ st.1, r.keyword = kw) ∧
    (st.1.map (fun r => r.keyword)).Nodup

/-- Replay of the processing order of the worklist loop: scan the nodes of
order left to right, threading the result/lookup state. -/
def collectFrom (reg : List PropNode) : List Nat →
    List CSSKeywordRef × List String → List CSSKeywordRef × List String
  | [], st => st
  | j :: rest, st => collectFrom reg rest (scanAlts 0 (reg.getD j emptyNode).value st)

/-! ## pushDeps lemmas -/

theorem pushDeps_append (deps : List Nat) :
    ∀ stack, ∃ t, pushDeps stack deps = stack ++ t := by
  induction deps with
  | nil => intro stack; exact ⟨[], by simp [pushDeps]⟩
  | cons d rest ih =>
    intro stack
    by_cases h : d ∈ stack
    · obtain ⟨t, ht⟩ := ih stack
      exact ⟨t, by simp [pushDeps, h, ht]⟩
    · obtain ⟨t, ht⟩ := ih (stack ++ [d])
      refine ⟨[d] ++ t, ?_⟩
      simp only [pushDeps, h, if_neg, ite_false]
      rw [ht, List.append_assoc]

theorem mem_pushDeps_left (deps : List Nat) {stack : List Nat} {x : Nat}
    (hx : x ∈ stack) : x ∈ pushDeps stack deps := by
  obtain ⟨t, ht⟩ := pushDeps_append deps stack
  rw [ht]; exact List.mem_append_left t hx

theorem mem_pushDeps_right (deps : List Nat) :
    ∀ stack, ∀ d ∈ deps, d ∈ pushDeps stack deps := by
  induction deps with
  | nil => intro stack d hd; cases hd
  | cons a rest ih =>
    intro stack d hd
    rcases List.mem_cons.1 hd with rfl | hd
    · by_cases h : d ∈ stack
      · simpa [pushDeps, h] using mem_pushDeps_left rest h
      · have : d ∈ stack ++ [d] := List.mem_append_right _ (List.mem_singleton.2 rfl)
        simpa [pushDeps, h] using mem_pushDeps_left rest this
    · by_cases h : a ∈ stack <;> simpa [pushDeps, h] using ih _ d hd

theorem mem_pushDeps (deps : List Nat) :
    ∀ stack x, x ∈ pushDeps stack deps → x ∈ stack ∨ x ∈ deps := by
  induction deps with
  | nil => intro stack x hx; exact Or.inl (by simpa [pushDeps] using hx)
  | cons a rest ih =>
    intro stack x hx
    by_cases h : a ∈ stack
    · rcases ih stack x (by simpa [pushDeps, h] using hx) with h1 | h1
      · exact Or.inl h1
      · exact Or.inr (List.mem_cons_of_mem _ h1)
    · rcases ih (stack ++ [a]) x (by simpa [pushDeps, h] using hx) with h1 | h1
      · rcases List.mem_append.1 h1 with h2 | h2
        · exact Or.inl h2
        · exact Or.inr (List.mem_cons.2 (Or.inl (List.mem_singleton.1 h2)))
      · exact Or.inr (List.mem_cons_of_mem _ h1)

theorem nodup_pushDeps (deps : List Nat) :
    ∀ stack, stack.Nodup → (pushDeps stack deps).Nodup := by
  induction deps with
  | nil => intro stack h; simpa [pushDeps] using h
  | cons a rest ih =>
    intro stack h
    by_cases ha : a ∈ stack
    · simpa [pushDeps, ha] using ih stack h
    · have : (stack ++ [a]).Nodup := by
        simp [List.nodup_append, h, ha]
      simpa [pushDeps, ha] using ih (stack ++ [a]) this

/-! ## kwLoop lemmas -/

theorem kwLoop_reg (fuel : Nat) :
    ∀ reg stack i st res fin reg1,
      kwLoop fuel reg stack i st = some (res, fin, reg1) → reg1 = reg := by
  induction fuel with
  | zero =>
    intro reg stack i st res fin reg1 h
    simp only [kwLoop] at h
    split at h
    · cases h
    · cases h; rfl
  | succ fuel ih =>
    intro reg stack i st res fin reg1 h
    simp only [kwLoop] at h
    split at h
    · exact ih _ _ _ _ _ _ _ h
    · cases h; rfl

theorem kwLoop_grows (fuel : Nat) :
    ∀ reg stack i st res fin reg1,
      kwLoop fuel reg stack i st = some (res, fin, reg1) →
      ∃ t, fin = stack ++ t := by
  induction fuel with
  | zero =>
    intro reg stack i st res fin reg1 h
    simp only [kwLoop] at h
    split at h
    · cases h
    · cases h; exact ⟨[], by simp⟩
  | succ fuel ih =>
    intro reg stack i st res fin reg1 h
    simp only [kwLoop] at h
    split at h
    · obtain ⟨t1, ht1⟩ := ih _ _ _ _ _ _ _ h
      obtain ⟨t0, ht0⟩ := pushDeps_append _ stack
      exact ⟨t0 ++ t1, by rw [ht1, ht0, List.append_assoc]⟩
    · cases h; exact ⟨[], by simp⟩

theorem kwLoop_collect (fuel : Nat) :
    ∀ reg stack i st res fin reg1,
      kwLoop fuel reg stack i st = some (res, fin, reg1) →
      i ≤ stack.length →
      res = (collectFrom reg (fin.drop i) st).1 := by
  induction fuel with
  | zero =>
    intro reg stack i st res fin reg1 h hi
    simp only [kwLoop] at h
    split at h
    · cases h
    · cases h
      rename_i hge
      rw [List.drop_eq_nil_of_le (Nat.le_of_not_lt hge)]
      rfl
  | succ fuel ih =>
    intro reg stack i st res fin reg1 h hi
    simp only [kwLoop] at h
    split at h
    · rename_i hlt
      obtain ⟨t0, ht0⟩ := pushDeps_append (reg.getD (stack.get ⟨i, hlt⟩) emptyNode).dependencies stack
      have hlen : i + 1 ≤ (pushDeps stack (reg.getD (stack.get ⟨i, hlt⟩) emptyNode).dependencies).length := by
        rw [ht0, List.length_append]
        omega
      have hres := ih _ _ _ _ _ _ _ h hlen
      obtain ⟨t1, ht1⟩ := kwLoop_grows fuel _ _ _ _ _ _ _ h
      have hfin : fin = stack ++ (t0 ++ t1) := by
        rw [ht1, ht0, List.append_assoc]
      have hflen : i < fin.length := by
        rw [hfin, List.length_append]; omega
      have hdrop : fin.drop i = fin[i] :: fin.drop (i + 1) :=
        List.drop_eq_getElem_cons hflen
      have hget : fin[i] = stack[i] := by
        refine List.getElem_eq_iff.2 ?_
        rw [hfin, List.getElem?_append_left hlt]
        exact List.getElem?_eq_getElem hlt
      rw [hres, hdrop, hget]
      simp only [collectFrom, List.get_eq_getElem]
    · rename_i hge
      cases h
      rw [List.drop_eq_nil_of_le (Nat.le_of_not_lt hge)]
      rfl

theorem kwLoop_total (reg : List PropNode) (allowed : Finset Nat)
    (hdeps : ∀ j, ∀ d ∈ (reg.getD j emptyNode).dependencies, d ∈ allowed) :
    ∀ fuel stack i st, stack.Nodup → (∀ x ∈ stack, x ∈ allowed) →
      allowed.card ≤ i + fuel → (kwLoop fuel reg stack i st).isSome := by
  intro fuel
  induction fuel with
  | zero =>
    intro stack i st hnd hsub hcard
    simp only [kwLoop]
    split
    · rename_i hlt
      exfalso
      have h1 : stack.toFinset.card = stack.length := List.toFinset_card_of_nodup hnd
      have h2 : stack.toFinset ⊆ allowed := by
        intro x hx
        exact hsub x (List.mem_toFinset.1 hx)
      have h3 : stack.length ≤ allowed.card := h1 ▸ Finset.card_le_card h2
      omega
    · rfl
  | succ fuel ih =>
    intro stack i st hnd hsub hcard
    simp only [kwLoop]
    split
    · rename_i hlt
      apply ih
      · exact nodup_pushDeps _ _ hnd
      · intro x hx
        rcases mem_pushDeps _ _ _ hx with h1 | h1
        · exact hsub x h1
        · exact hdeps _ _ h1
      · omega
    · rfl

theorem kwLoop_closed (fuel : Nat) :
    ∀ reg stack i st res fin reg1,
      kwLoop fuel reg stack i st = some (res, fin, reg1) →
      i ≤ stack.length →
      (∀ x ∈ stack.take i, ∀ d ∈ depsOf reg x, d ∈ stack) →
      ∀ x ∈ fin, ∀ d ∈ depsOf reg x, d ∈ fin := by
  induction fuel with
  | zero =>
    intro reg stack i st res fin reg1 h hi hinv
    simp only [kwLoop] at h
    split at h
    · cases h
    · cases h
      rename_i hge
      have hts : stack.take i = stack := List.take_of_length_le (Nat.le_of_not_lt hge)
      intro x hx
      exact hinv x (by rw [hts]; exact hx)
  | succ fuel ih =>
    intro reg stack i st res fin reg1 h hi hinv
    simp only [kwLoop] at h
    split at h
    · rename_i hlt
      obtain ⟨t0, ht0⟩ := pushDeps_append (reg.getD (stack.get ⟨i, hlt⟩) emptyNode).dependencies stack
      refine ih _ _ _ _ _ _ _ h ?_ ?_
      · rw [ht0, List.length_append]; omega
      · intro x hx d hd
        have htake : (pushDeps stack (reg.getD (stack.get ⟨i, hlt⟩) emptyNode).dependencies).take (i + 1)
            = stack.take i ++ [stack[i]] := by
          rw [ht0, List.take_append_of_le_length (by omega), List.take_succ]
          simp [List.getElem?_eq_getElem hlt]
        rw [htake] at hx
        rcases List.mem_append.1 hx with h1 | h1
        · exact mem_pushDeps_left _ (hinv x h1 d hd)
        · have hx2 : x = stack[i] := List.mem_singleton.1 h1
          subst hx2
          apply mem_pushDeps_right
          simpa [depsOf, List.get_eq_getElem] using hd
    · cases h
      rename_i hge
      have hts : stack.take i = stack := List.take_of_length_le (Nat.le_of_not_lt hge)
      intro x hx
      exact hinv x (by rw [hts]; exact hx)

theorem kwLoop_sound (fuel : Nat) (s0 : Nat) :
    ∀ reg stack i st res fin reg1,
      kwLoop fuel reg stack i st = some (res, fin, reg1) →
      (∀ x ∈ stack, ReachR reg s0 x) →
      ∀ x ∈ fin, ReachR reg s0 x := by
  induction fuel with
  | zero =>
    intro reg stack i st res fin reg1 h hr
    simp only [kwLoop] at h
    split at h
    · cases h
    · cases h; exact hr
  | succ fuel ih =>
    intro reg stack i st res fin reg1 h hr
    simp only [kwLoop] at h
    split at h
    · rename_i hlt
      refine ih _ _ _ _ _ _ _ h ?_
      intro x hx
      rcases mem_pushDeps _ _ _ hx with h1 | h1
      · exact hr x h1
      · refine Relation.ReflTransGen.tail (hr _ (stack.get_mem i hlt)) ?_
        show EdgeR reg (stack.get ⟨i, hlt⟩) x
        simpa [EdgeR, depsOf] using h1
    · cases h; exact hr

theorem reach_mem_of_closed {reg : List PropNode} {fin : List Nat} {s0 : Nat}
    (hcl : ∀ x ∈ fin, ∀ d ∈ depsOf reg x, d ∈ fin) (hs : s0 ∈ fin) :
    ∀ x, ReachR reg s0 x → x ∈ fin := by
  intro x hx
  induction hx with
  | refl => exact hs
  | tail h1 h2 ih => exact hcl _ ih _ h2

/-! ## Keyword bookkeeping lemmas -/

theorem addKw_lookup (idx : Nat) (kws : List String) :
    ∀ st kw, kw ∈ (addKw idx kws st).2 ↔ kw ∈ st.2 ∨ kw ∈ kws := by
  induction kws with
  | nil => intro st kw; simp [addKw]
  | cons k rest ih =>
    intro st kw
    obtain ⟨res, lk⟩ := st
    by_cases hk : k ∈ lk
    · rw [show addKw idx (k :: rest) (res, lk) = addKw idx rest (res, lk) by simp [addKw, hk]]
      rw [ih]
      constructor
      · rintro (h | h)
        · exact Or.inl h
        · exact Or.inr (List.mem_cons_of_mem _ h)
      · rintro (h | h)
        · exact Or.inl h
        · rcases List.mem_cons.1 h with rfl | h2
          · exact Or.inl hk
          · exact Or.inr h2
    · rw [show addKw idx (k :: rest) (res, lk)
          = addKw idx rest (res ++ [{ keyword := k, index := idx }], lk ++ [k]) by
        simp [addKw, hk]]
      rw [ih]
      simp only [List.mem_append, List.mem_singleton, List.mem_cons]
      tauto

theorem addKw_inv (idx : Nat) (kws : List String) :
    ∀ st, kwSetInv st → kwSetInv (addKw idx kws st) := by
  induction kws with
  | nil => intro st h; simpa [addKw] using h
  | cons k rest ih =>
    intro st h
    obtain ⟨res, lk⟩ := st
    by_cases hk : k ∈ lk
    · rw [show addKw idx (k :: rest) (res, lk) = addKw idx rest (res, lk) by simp [addKw, hk]]
      exact ih _ h
    · rw [show addKw idx (k :: rest) (res, lk)
          = addKw idx rest (res ++ [{ keyword := k, index := idx }], lk ++ [k]) by
        simp [addKw, hk]]
      refine ih _ ⟨?_, ?_⟩
      · intro kw
        constructor
        · intro hkw
          rcases List.mem_append.1 hkw with h1 | h1
          · obtain ⟨r, hr, hrk⟩ := (h.1 kw).1 h1
            exact ⟨r, List.mem_append_left _ hr, hrk⟩
          · refine ⟨{ keyword := k, index := idx }, List.mem_append_right _ ?_, ?_⟩
            · exact List.mem_singleton.2 rfl
            · exact (List.mem_singleton.1 h1).symm
        · rintro ⟨r, hr, hrk⟩
          rcases List.mem_append.1 hr with h1 | h1
          · exact List.mem_append_left _ ((h.1 kw).2 ⟨r, h1, hrk⟩)
          · rw [List.mem_singleton.1 h1] at hrk
            rw [← hrk]
            exact List.mem_append_right _ (List.mem_singleton.2 rfl)
      · rw [List.map_append, List.nodup_append]
        refine ⟨h.2, by simp, ?_⟩
        intro a ha hb
        simp only [List.map_cons, List.map_nil, List.mem_singleton] at hb
        rcases List.mem_map.1 ha with ⟨r, hr, hrk⟩
        rw [hb] at hrk
        exact hk ((h.1 k).2 ⟨r, hr, hrk⟩)

theorem addKw_result (idx : Nat) (kws : List String) :
    ∀ st r, kwSetInv st → r ∈ (addKw idx kws st).1 →
      r ∈ st.1 ∨ (r.keyword ∉ st.2 ∧ r.keyword ∈ kws ∧ r.index = idx) := by
  induction kws with
  | nil => intro st r _ h; exact Or.inl (by simpa [addKw] using h)
  | cons k rest ih =>
    intro st r hinv h
    obtain ⟨res, lk⟩ := st
    by_cases hk : k ∈ lk
    · rw [show addKw idx (k :: rest) (res, lk) = addKw idx rest (res, lk) by simp [addKw, hk]] at h
      rcases ih _ r hinv h with h1 | ⟨h1, h2, h3⟩
      · exact Or.inl h1
      · exact Or.inr ⟨h1, List.mem_cons_of_mem _ h2, h3⟩
    · rw [show addKw idx (k :: rest) (res, lk)
          = addKw idx rest (res ++ [{ keyword := k, index := idx }], lk ++ [k]) by
        simp [addKw, hk]] at h
      have hinv2 : kwSetInv (res ++ [{ keyword := k, index := idx }], lk ++ [k]) := by
        have := addKw_inv idx [k] (res, lk) hinv
        simpa [addKw, hk] using this
      rcases ih _ r hinv2 h with h1 | ⟨h1, h2, h3⟩
      · rcases List.mem_append.1 h1 with h2 | h2
        · exact Or.inl h2
        · rw [List.mem_singleton.1 h2]
          exact Or.inr ⟨hk, List.mem_cons_self _ _, rfl⟩
      · have h1a : r.keyword ∉ lk := fun hc => h1 (List.mem_append_left _ hc)
        exact Or.inr ⟨h1a, List.mem_cons_of_mem _ h2, h3⟩

theorem scanAlts_lookup (alts : List (List CSSValue)) :
    ∀ idx st kw, kw ∈ (scanAlts idx alts st).2 ↔ kw ∈ st.2 ∨ kw ∈ altsKeywords alts := by
  induction alts with
  | nil => intro idx st kw; simp [scanAlts, altsKeywords]
  | cons alt rest ih =>
    intro idx st kw
    rw [show scanAlts idx (alt :: rest) st
        = scanAlts (idx + 1) rest (addKw idx (keywordsFromValue alt) st) from rfl]
    rw [ih, addKw_lookup]
    simp only [altsKeywords, List.mem_append]
    tauto

theorem scanAlts_inv (alts : List (List CSSValue)) :
    ∀ idx st, kwSetInv st → kwSetInv (scanAlts idx alts st) := by
  induction alts with
  | nil => intro idx st h; exact h
  | cons alt rest ih =>
    intro idx st h
    exact ih _ _ (addKw_inv _ _ _ h)

theorem collectFrom_lookup (reg : List PropNode) (order : List Nat) :
    ∀ st kw, kw ∈ (collectFrom reg order st).2 ↔
      kw ∈ st.2 ∨ ∃ j ∈ order, kw ∈ nodeKeywords reg j := by
  induction order with
  | nil => intro st kw; simp [collectFrom]
  | cons j rest ih =>
    intro st kw
    rw [show collectFrom reg (j :: rest) st
        = collectFrom reg rest (scanAlts 0 (reg.getD j emptyNode).value st) from rfl]
    rw [ih, scanAlts_lookup]
    simp only [List.mem_cons, nodeKeywords]
    constructor
    · rintro ((h | h) | ⟨x, hx, hkw⟩)
      · exact Or.inl h
      · exact Or.inr ⟨j, Or.inl rfl, h⟩
      · exact Or.inr ⟨x, Or.inr hx, hkw⟩
    · rintro (h | ⟨x, (rfl | hx), hkw⟩)
      · exact Or.inl (Or.inl h)
      · exact Or.inl (Or.inr hkw)
      · exact Or.inr ⟨x, hx, hkw⟩

theorem collectFrom_inv (reg : List PropNode) (order : List Nat) :
    ∀ st, kwSetInv st → kwSetInv (collectFrom reg order st) := by
  induction order with
  | nil => intro st h; exact h
  | cons j rest ih =>
    intro st h
    exact ih _ (scanAlts_inv _ _ _ h)

/-! ## First-occurrence functions for the index claim -/

/-- The alternative index (starting at idx) of the first alternative whose
keywords contain kw. -/
def firstHitAlts (kw : String) (idx : Nat) : List (List CSSValue) → Option Nat
  | [] => none
  | alt :: rest =>
    if kw ∈ keywordsFromValue alt then some idx else firstHitAlts kw (idx + 1) rest

/-- Scanning the nodes of order in turn, the alternative index at which kw
is first encountered (inside the first node of order that contains it). -/
def firstHit (reg : List PropNode) (kw : String) : List Nat → Option Nat
  | [] => none
  | j :: rest =>
    match firstHitAlts kw 0 (reg.getD j emptyNode).value with
    | some idx => some idx
    | none => firstHit reg kw rest

theorem firstHitAlts_none (kw : String) (alts : List (List CSSValue))
    (h : kw ∉ altsKeywords alts) : ∀ idx, firstHitAlts kw idx alts = none := by
  induction alts with
  | nil => intro idx; rfl
  | cons alt rest ih =>
    intro idx
    simp only [altsKeywords, List.mem_append, not_or] at h
    rw [show firstHitAlts kw idx (alt :: rest)
        = if kw ∈ keywordsFromValue alt then some idx else firstHitAlts kw (idx + 1) rest from rfl]
    rw [if_neg h.1]
    exact ih h.2 _

theorem scanAlts_first (alts : List (List CSSValue)) :
    ∀ idx st r, kwSetInv st → r ∈ (scanAlts idx alts st).1 →
      r ∈ st.1 ∨ (r.keyword ∉ st.2 ∧ firstHitAlts r.keyword idx alts = some r.index) := by
  induction alts with
  | nil => intro idx st r _ h; exact Or.inl h
  | cons alt rest ih =>
    intro idx st r hinv h
    rw [show scanAlts idx (alt :: rest) st
        = scanAlts (idx + 1) rest (addKw idx (keywordsFromValue alt) st) from rfl] at h
    rcases ih _ _ r (addKw_inv _ _ _ hinv) h with h1 | ⟨h1, h2⟩
    · rcases addKw_result _ _ _ r hinv h1 with h2 | ⟨h2, h3, h4⟩
      · exact Or.inl h2
      · refine Or.inr ⟨h2, ?_⟩
        rw [show firstHitAlts r.keyword idx (alt :: rest)
            = if r.keyword ∈ keywordsFromValue alt then some idx
              else firstHitAlts r.keyword (idx + 1) rest from rfl]
        rw [if_pos h3, h4]
    · rw [addKw_lookup] at h1
      push_neg at h1
      refine Or.inr ⟨h1.1, ?_⟩
      rw [show firstHitAlts r.keyword idx (alt :: rest)
          = if r.keyword ∈ keywordsFromValue alt then some idx
            else firstHitAlts r.keyword (idx + 1) rest from rfl]
      rw [if_neg h1.2]
      exact h2

theorem collectFrom_first (reg : List PropNode) (order : List Nat) :
    ∀ st r, kwSetInv st → r ∈ (collectFrom reg order st).1 →
      r ∈ st.1 ∨ (r.keyword ∉ st.2 ∧ firstHit reg r.keyword order = some r.index) := by
  induction order with
  | nil => intro st r _ h; exact Or.inl h
  | cons j rest ih =>
    intro st r hinv h
    rw [show collectFrom reg (j :: rest) st
        = collectFrom reg rest (scanAlts 0 (reg.getD j emptyNode).value st) from rfl] at h
    rcases ih _ r (scanAlts_inv _ _ _ hinv) h with h1 | ⟨h1, h2⟩
    · rcases scanAlts_first _ _ _ r hinv h1 with h2 | ⟨h2, h3⟩
      · exact Or.inl h2
      · refine Or.inr ⟨h2, ?_⟩
        rw [show firstHit reg r.keyword (j :: rest)
            = (match firstHitAlts r.keyword 0 (reg.getD j emptyNode).value with
               | some idx => some idx
               | none => firstHit reg r.keyword rest) from rfl]
        rw [h3]
    · rw [scanAlts_lookup] at h1
      push_neg at h1
      refine Or.inr ⟨h1.1, ?_⟩
      rw [show firstHit reg r.keyword (j :: rest)
          = (match firstHitAlts r.keyword 0 (reg.getD j emptyNode).value with
             | some idx => some idx
             | none => firstHit reg r.keyword rest) from rfl]
      rw [firstHitAlts_none _ _ h1.2]
      exact h2

/-! ## Assembled facts about getKeywords -/

theorem deps_mem_range {reg : List PropNode} (hwf : WFreg reg) :
    ∀ j, ∀ d ∈ (reg.getD j emptyNode).dependencies, d ∈ Finset.range reg.length := by
  intro j d hd
  by_cases hj : j < reg.length
  · rw [List.getD_eq_getElem?_getD, List.getElem?_eq_getElem hj] at hd
    exact Finset.mem_range.2 (hwf _ (List.getElem_mem hj) d hd)
  · rw [List.getD_eq_getElem?_getD, List.getElem?_eq_none (Nat.le_of_not_lt hj)] at hd
    cases hd

theorem getKeywordsFull_isSome {reg : List PropNode} (hwf : WFreg reg) (s : SnippetRef) :
    (getKeywordsFull reg s).isSome := by
  cases s with
  | Raw k v =>
    refine kwLoop_total reg (Finset.range reg.length)
      (deps_mem_range hwf) _ _ _ _ List.nodup_nil ?_ ?_
    · intro x hx; cases hx
    · rw [Finset.card_range]; omega
  | Property i =>
    refine kwLoop_total reg (insert i (Finset.range reg.length))
      (fun j d hd => Finset.mem_insert_of_mem (deps_mem_range hwf j d hd)) _ _ _ _
      (List.nodup_singleton i) ?_ ?_
    · intro x hx
      rw [List.mem_singleton.1 hx]
      exact Finset.mem_insert_self _ _
    · calc (insert i (Finset.range reg.length)).card
          ≤ (Finset.range reg.length).card + 1 := Finset.card_insert_le _ _
        _ = reg.length + 1 := by rw [Finset.card_range]
        _ ≤ 0 + (reg.length + 1) := by omega

/-- Claim C3: for every snippet over a wellformed heap, in particular one
whose dependency graph contains a cycle, getKeywords terminates (the
worklist loop returns within its fuel) and returns the union of the
keywords of all nodes reachable from the snippet, each keyword exactly
once. -/
theorem claim_C3 (reg : List PropNode) (i0 : Nat) (hwf : WFreg reg)
    (hi : i0 < reg.length)
    (hcyc : ∃ A B : Nat, A < reg.length ∧ B < reg.length ∧
      B ∈ depsOf reg A ∧ A ∈ depsOf reg B) :
    ∃ res fin, getKeywordsFull reg (.Property i0) = some (res, fin, reg) ∧
      (∀ kw, (∃ r ∈ res, r.keyword = kw) ↔
        ∃ j, ReachR reg i0 j ∧ kw ∈ nodeKeywords reg j) ∧
      (res.map (fun r => r.keyword)).Nodup := by
  have hsome := getKeywordsFull_isSome hwf (.Property i0)
  obtain ⟨⟨res, fin, reg1⟩, heq0⟩ := Option.isSome_iff_exists.1 hsome
  have heq : kwLoop (reg.length + 1) reg [i0] 0 ([], []) = some (res, fin, reg1) := heq0
  have hreg : reg1 = reg := kwLoop_reg _ _ _ _ _ _ _ _ heq
  rw [hreg] at heq heq0
  have hcol : res = (collectFrom reg (fin.drop 0) ([], [])).1 :=
    kwLoop_collect _ _ _ _ _ _ _ _ heq (by simp)
  rw [List.drop_zero] at hcol
  obtain ⟨t, ht⟩ := kwLoop_grows _ _ _ _ _ _ _ _ heq
  have hi0fin : i0 ∈ fin := by rw [ht]; exact List.mem_append_left _ (List.mem_singleton.2 rfl)
  have hsound : ∀ x ∈ fin, ReachR reg i0 x := by
    refine kwLoop_sound _ i0 _ _ _ _ _ _ _ heq ?_
    intro x hx
    rw [List.mem_singleton.1 hx]
    exact Relation.ReflTransGen.refl
  have hclosed : ∀ x ∈ fin, ∀ d ∈ depsOf reg x, d ∈ fin := by
    refine kwLoop_closed _ _ _ _ _ _ _ _ heq (by simp) ?_
    intro x hx; simp at hx
  have hinv0 : kwSetInv ([], []) := ⟨by simp, List.nodup_nil⟩
  have hcinv := collectFrom_inv reg fin ([], []) hinv0
  refine ⟨res, fin, heq0, ?_, ?_⟩
  · intro kw
    constructor
    · rintro ⟨r, hr, hrk⟩
      have h1 : kw ∈ (collectFrom reg fin ([], [])).2 :=
        (hcinv.1 kw).2 ⟨r, hcol ▸ hr, hrk⟩
      rcases (collectFrom_lookup reg fin ([], []) kw).1 h1 with h2 | ⟨j, hj, hkw⟩
      · cases h2
      · exact ⟨j, hsound j hj, hkw⟩
    · rintro ⟨j, hreach, hkw⟩
      have hjfin : j ∈ fin := reach_mem_of_closed hclosed hi0fin j hreach
      have h1 : kw ∈ (collectFrom reg fin ([], [])).2 :=
        (collectFrom_lookup reg fin ([], []) kw).2 (Or.inr ⟨j, hjfin, hkw⟩)
      obtain ⟨r, hr, hrk⟩ := (hcinv.1 kw).1 h1
      exact ⟨r, hcol ▸ hr, hrk⟩
  · rw [hcol]
    exact hcinv.2

/-- Concrete two-node cycle: the hypotheses of claim C3 are satisfiable and
the traversal terminates with each of the two keywords exactly once. -/
theorem claim_C3_witness :
    WFreg [{ key := "a", property := "a", value := [[{ value := [.Literal "x"] }]],
             dependencies := [1] },
           { key := "b", property := "b", value := [[{ value := [.Literal "y"] }]],
             dependencies := [0] }] ∧
    ∃ res fin,
      getKeywordsFull
        [{ key := "a", property := "a", value := [[{ value := [.Literal "x"] }]],
           dependencies := [1] },
         { key := "b", property := "b", value := [[{ value := [.Literal "y"] }]],
           dependencies := [0] }] (.Property 0) =
        some (res, fin,
          [{ key := "a", property := "a", value := [[{ value := [.Literal "x"] }]],
             dependencies := [1] },
           { key := "b", property := "b", value := [[{ value := [.Literal "y"] }]],
             dependencies := [0] }]) ∧
      (∀ kw, (∃ r ∈ res, r.keyword = kw) ↔
        ∃ j, ReachR
          [{ key := "a", property := "a", value := [[{ value := [.Literal "x"] }]],
             dependencies := [1] },
           { key := "b", property := "b", value := [[{ value := [.Literal "y"] }]],
             dependencies := [0] }] 0 j ∧
          kw ∈ nodeKeywords
            [{ key := "a", property := "a", value := [[{ value := [.Literal "x"] }]],
               dependencies := [1] },
             { key := "b", property := "b", value := [[{ value := [.Literal "y"] }]],
               dependencies := [0] }] j) ∧
      (res.map (fun r => r.keyword)).Nodup :=
  ⟨by decide,
   claim_C3
     [{ key := "a", property := "a", value := [[{ value := [.Literal "x"] }]],
        dependencies := [1] },
      { key := "b", property := "b", value := [[{ value := [.Literal "y"] }]],
        dependencies := [0] }] 0 (by decide) (by decide)
     ⟨0, 1, by decide, by decide, by decide, by decide⟩⟩

/-- Claim C4: the keyword list returned by getKeywords never repeats a
keyword text, and the index stored with each keyword is the alternative
position at which that keyword is first encountered, scanning the visited
nodes in traversal order and each node's alternatives in order. -/
theorem claim_C4 (reg : List PropNode) (s : SnippetRef) (res : List CSSKeywordRef)
    (fin : List Nat) (reg1 : List PropNode)
    (h : getKeywordsFull reg s = some (res, fin, reg1)) :
    (res.map (fun r => r.keyword)).Nodup ∧
    ∀ r ∈ res, firstHit reg r.keyword fin = some r.index := by
  have hinv0 : kwSetInv ([], []) := ⟨by simp, List.nodup_nil⟩
  have hcol : res = (collectFrom reg fin ([], [])).1 := by
    cases s with
    | Raw k v =>
      have heq : kwLoop (reg.length + 1) reg [] 0 ([], []) = some (res, fin, reg1) := h
      have := kwLoop_collect _ _ _ _ _ _ _ _ heq (by simp)
      rwa [List.drop_zero] at this
    | Property i =>
      have heq : kwLoop (reg.length + 1) reg [i] 0 ([], []) = some (res, fin, reg1) := h
      have := kwLoop_collect _ _ _ _ _ _ _ _ heq (by simp)
      rwa [List.drop_zero] at this
  constructor
  · rw [hcol]
    exact (collectFrom_inv reg fin ([], []) hinv0).2
  · intro r hr
    rcases collectFrom_first reg fin ([], []) r hinv0 (hcol ▸ hr) with h1 | ⟨_, h2⟩
    · cases h1
    · exact h2

/-- Concrete instance for claim C4: a node whose keyword x appears in
alternatives 0 and 1 and whose keyword y appears in alternative 1; the
result holds x once with index 0 and y with index 1. -/
theorem claim_C4_witness :
    getKeywordsFull
      [{ key := "a", property := "a",
         value := [[{ value := [.Literal "x"] }],
                   [{ value := [.Literal "x"] }, { value := [.Literal "y"] }]],
         dependencies := [] }] (.Property 0) =
      some ([{ keyword := "x", index := 0 }, { keyword := "y", index := 1 }], [0],
        [{ key := "a", property := "a",
           value := [[{ value := [.Literal "x"] }],
                     [{ value := [.Literal "x"] }, { value := [.Literal "y"] }]],
           dependencies := [] }]) ∧
    (([{ keyword := "x", index := 0 },
       { keyword := "y", index := 1 }] : List CSSKeywordRef).map
        (fun r => r.keyword)).Nodup ∧
    ∀ r ∈ ([{ keyword := "x", index := 0 },
            { keyword := "y", index := 1 }] : List CSSKeywordRef),
      firstHit
        [{ key := "a", property := "a",
           value := [[{ value := [.Literal "x"] }],
                     [{ value := [.Literal "x"] }, { value := [.Literal "y"] }]],
           dependencies := [] }] r.keyword [0] = some r.index := by
  refine ⟨by decide, ?_⟩
  exact claim_C4
    [{ key := "a", property := "a",
       value := [[{ value := [.Literal "x"] }],
                 [{ value := [.Literal "x"] }, { value := [.Literal "y"] }]],
       dependencies := [] }] (.Property 0)
    [{ keyword := "x", index := 0 }, { keyword := "y", index := 1 }] [0]
    [{ key := "a", property := "a",
       value := [[{ value := [.Literal "x"] }],
                 [{ value := [.Literal "x"] }, { value := [.Literal "y"] }]],
       dependencies := [] }] (by decide)

/-- Claim C9: getKeywords is deterministic and idempotent; the traversal
never writes to the heap (the registry comes back unchanged), so a second
call on the same snippet returns the same keyword sequence. -/
theorem claim_C9 (reg : List PropNode) (s : SnippetRef) (res : List CSSKeywordRef)
    (fin : List Nat) (reg1 : List PropNode)
    (h : getKeywordsFull reg s = some (res, fin, reg1)) :
    reg1 = reg ∧ getKeywordsFull reg1 s = some (res, fin, reg1) := by
  have hreg : reg1 = reg := by
    cases s with
    | Raw k v =>
      have heq : kwLoop (reg.length + 1) reg [] 0 ([], []) = some (res, fin, reg1) := h
      exact kwLoop_reg _ _ _ _ _ _ _ _ heq
    | Property i =>
      have heq : kwLoop (reg.length + 1) reg [i] 0 ([], []) = some (res, fin, reg1) := h
      exact kwLoop_reg _ _ _ _ _ _ _ _ heq
  rw [← hreg] at h
  exact ⟨hreg, h⟩

/-- Concrete instance for claim C9: the heap comes back unchanged and the
repeated call returns the same sequence. -/
theorem claim_C9_witness :
    ([{ key := "a", property := "a", value := [[{ value := [.Literal "x"] }]],
        dependencies := [] }] : List PropNode) =
      [{ key := "a", property := "a", value := [[{ value := [.Literal "x"] }]],
         dependencies := [] }] ∧
    getKeywordsFull
      [{ key := "a", property := "a", value := [[{ value := [.Literal "x"] }]],
         dependencies := [] }] (.Property 0) =
      some ([{ keyword := "x", index := 0 }], [0],
        [{ key := "a", property := "a", value := [[{ value := [.Literal "x"] }]],
           dependencies := [] }]) :=
  claim_C9
    [{ key := "a", property := "a", value := [[{ value := [.Literal "x"] }]],
       dependencies := [] }] (.Property 0) [{ keyword := "x", index := 0 }] [0]
    [{ key := "a", property := "a", value := [[{ value := [.Literal "x"] }]],
       dependencies := [] }] (by decide)

/-! ## Builder claims -/

/-- Claim C2 (code-bug evidence): the definition string "width" matches
reProperty in full, with the optional colon-and-payload group absent, so the
claim requires a Property snippet; but createSnippet evaluates m[2].split
with m[2] undefined (line 50) and throws a TypeError, modelled as none.
The external parser is irrelevant here (it is never reached), so it is
instantiated with a constant function. -/
theorem claim_C2 :
    matchProperty "width" = some ("width", none) ∧
    createSnippet (fun _ => some []) "w" "width" = none := by
  constructor
  · decide
  · decide

/-- Claim C8: a definition string that does not match reProperty is turned
into a Raw snippet storing the definition verbatim, for every external
parser; the builder cannot fail on such input. -/
theorem claim_C8 (pext : String → Option (List CSSValue)) (key value : String)
    (h : matchProperty value = none) :
    createSnippet pext key value = some (.Raw key value) := by
  simp [createSnippet, h]

/-- Concrete instance for claim C8: free text with a space and punctuation
does not match reProperty and becomes a verbatim Raw snippet. -/
theorem claim_C8_witness :
    matchProperty "hello world!" = none ∧
    createSnippet (fun _ => some []) "k" "hello world!" =
      some (.Raw "k" "hello world!") :=
  ⟨by decide, claim_C8 (fun _ => some []) "k" "hello world!" (by decide)⟩

/-! ## Sorting lemmas and the multiset / in-place claims -/

theorem snippetsSort_le_iff (reg : List PropNode) (a b : SnippetRef) :
    snippetsSort reg a b ≤ 0 ↔ keyOf reg a ≤ keyOf reg b := by
  unfold snippetsSort
  split_ifs with h1 h2
  · exact iff_of_true (by decide) (le_of_eq h1)
  · exact iff_of_true (by decide) (le_of_lt h2)
  · refine iff_of_false (by decide) ?_
    intro h
    exact h2 (lt_of_le_of_ne h h1)

theorem sortSnippets_pairwise (reg : List PropNode) (snippets : List SnippetRef) :
    (sortSnippets reg snippets).Pairwise (fun a b => snippetsSort reg a b ≤ 0) := by
  have htrans : ∀ a b c : SnippetRef,
      decide (snippetsSort reg a b ≤ 0) = true →
      decide (snippetsSort reg b c ≤ 0) = true →
      decide (snippetsSort reg a c ≤ 0) = true := by
    intro a b c h1 h2
    rw [decide_eq_true_eq, snippetsSort_le_iff] at h1 h2 ⊢
    exact le_trans h1 h2
  have htotal : ∀ a b : SnippetRef,
      (decide (snippetsSort reg a b ≤ 0) || decide (snippetsSort reg b a ≤ 0)) = true := by
    intro a b
    rcases le_total (keyOf reg a) (keyOf reg b) with h | h
    · rw [Bool.or_eq_true]
      exact Or.inl (by rw [decide_eq_true_eq, snippetsSort_le_iff]; exact h)
    · rw [Bool.or_eq_true]
      exact Or.inr (by rw [decide_eq_true_eq, snippetsSort_le_iff]; exact h)
  have hp := @List.sorted_mergeSort SnippetRef
    (fun a b => decide (snippetsSort reg a b ≤ 0)) htrans htotal snippets
  exact hp.imp (fun h => by rwa [decide_eq_true_eq] at h)

/-- Claim C5: nest preserves the input multiset: the returned list is a
permutation of the input (so nothing is duplicated or dropped, and every
Raw snippet value survives with its exact content), has the same length,
and is ordered by the snippetsSort comparator. -/
theorem claim_C5 (reg : List PropNode) (snippets : List SnippetRef) :
    ((nest reg snippets).2).Perm snippets ∧
    (nest reg snippets).2.length = snippets.length ∧
    (nest reg snippets).2.Pairwise (fun a b => snippetsSort reg a b ≤ 0) := by
  have hperm : ((nest reg snippets).2).Perm snippets := List.mergeSort_perm _ _
  exact ⟨hperm, hperm.length_eq, sortSnippets_pairwise reg snippets⟩

/-- Claim C10: nest sorts the snippet array in place through the received
array reference and returns that same reference: afterwards the reference
still names the caller's array, which now holds the key-sorted contents;
no other array is touched. -/
theorem claim_C10 (reg : List PropNode) (heap : List (List SnippetRef)) (arr : Nat) :
    (nestInPlace reg heap arr).2.2 = arr ∧
    ((nestInPlace reg heap arr).2.1).getD arr [] = sortSnippets reg (heap.getD arr []) ∧
    ∀ j, j ≠ arr → ((nestInPlace reg heap arr).2.1).getD j [] = heap.getD j [] := by
  refine ⟨rfl, ?_, ?_⟩
  · show (heap.set arr (sortSnippets reg (heap.getD arr []))).getD arr [] = _
    by_cases h : arr < heap.length
    · rw [List.getD_eq_getElem?_getD, List.getElem?_set_self h]
      rfl
    · have hlen : heap.length ≤ arr := Nat.le_of_not_lt h
      rw [List.set_eq_of_length_le hlen]
      rw [List.getD_eq_getElem?_getD, List.getElem?_eq_none hlen]
      simp [sortSnippets]
  · intro j hj
    show (heap.set arr (sortSnippets reg (heap.getD arr []))).getD j [] = _
    simp only [List.getD_eq_getElem?_getD, List.getElem?_set_ne (Ne.symm hj)]

/-! ## String order toolbox -/

/-- b is a followed by a hyphen followed by anything: the relation of the
nesting guard (cur.property startsWith prev.property with a hyphen at the
boundary). -/
def HExt (a b : String) : Prop := ∃ r : List Char, b.data = a.data ++ '-' :: r

/-- Characters a property name can consist of according to reProperty:
lowercase ASCII letters and hyphen. -/
def OkChars (s : String) : Prop := ∀ c ∈ s.data, c = '-' ∨ ('a' ≤ c ∧ c ≤ 'z')

instance (s : String) : Decidable (OkChars s) := by
  unfold OkChars; infer_instance

theorem lex_append (l : List Char) (c : Char) (t : List Char) :
    List.Lex (· < ·) l (l ++ c :: t) := by
  induction l with
  | nil => exact List.Lex.nil
  | cons x l2 ih => exact List.Lex.cons ih

theorem hext_lt {a b : String} (h : HExt a b) : a < b := by
  obtain ⟨r, hr⟩ := h
  rw [String.lt_iff_toList_lt]
  show List.Lex (· < ·) a.data b.data
  rw [hr]
  exact lex_append a.data '-' r

theorem hext_ne {a b : String} (h : HExt a b) : a ≠ b :=
  ne_of_lt (hext_lt h)

theorem lex_between {a : List Char} :
    ∀ {q : List Char} {r : List Char},
      (∀ c ∈ q, c = '-' ∨ ('a' ≤ c ∧ c ≤ 'z')) →
      List.Lex (· < ·) a q → List.Lex (· < ·) q (a ++ '-' :: r) →
      ∃ t, q = a ++ '-' :: t := by
  induction a with
  | nil =>
    intro q r halph h1 h2
    cases q with
    | nil => cases h1
    | cons c q2 =>
      cases h2 with
      | cons h3 => exact ⟨q2, rfl⟩
      | rel h3 =>
        rcases halph c (List.mem_cons_self _ _) with rfl | ⟨hc1, hc2⟩
        · exact absurd h3 (lt_irrefl _)
        · exact absurd h3 (not_lt_of_le (le_trans (by decide) hc1))
  | cons x a2 ih =>
    intro q r halph h1 h2
    cases q with
    | nil => cases h1
    | cons y q2 =>
      cases h2 with
      | cons h3 =>
        cases h1 with
        | cons h4 =>
          obtain ⟨t, ht⟩ := ih (fun c hc => halph c (List.mem_cons_of_mem _ hc)) h4 h3
          exact ⟨t, by rw [ht]; rfl⟩
        | rel h4 => exact absurd h4 (lt_irrefl _)
      | rel h3 =>
        cases h1 with
        | cons h4 => exact absurd h3 (lt_irrefl _)
        | rel h4 => exact absurd h3 (lt_asymm h4)

theorem hext_between {a q c : String} (halph : OkChars q) (h1 : a < q) (h2 : q < c)
    (hc : HExt a c) : HExt a q := by
  obtain ⟨r, hr⟩ := hc
  rw [String.lt_iff_toList_lt] at h1 h2
  have h1l : List.Lex (· < ·) a.data q.data := h1
  have h2l : List.Lex (· < ·) q.data (a.data ++ '-' :: r) := by
    have h2x : List.Lex (· < ·) q.data c.data := h2
    rwa [show (c.data : List Char) = a.data ++ '-' :: r from hr] at h2x
  exact lex_between halph h1l h2l

theorem snippetsSort_of_lt {reg : List PropNode} {a b : SnippetRef}
    (h : keyOf reg a < keyOf reg b) : snippetsSort reg a b = -1 := by
  unfold snippetsSort
  rw [if_neg (ne_of_lt h), if_pos h]

theorem snippetsSort_of_gt {reg : List PropNode} {a b : SnippetRef}
    (h : keyOf reg b < keyOf reg a) : snippetsSort reg a b = 1 := by
  unfold snippetsSort
  rw [if_neg (ne_of_gt h), if_neg (lt_asymm h)]

/-- Claim C6 counterexample: under the snippetsSort comparator the hyphen
sorts BEFORE the lowercase letters, not after them as the claim states: the
key consisting of a hyphen precedes the key consisting of the letter a, and
consequently background-position precedes backgrounda, which the claimed
ordering rationale would place the other way round. -/
theorem claim_C6_counterexample :
    snippetsSort [] (.Raw "-" "") (.Raw "a" "") = -1 ∧
    snippetsSort [] (.Raw "a" "") (.Raw "-" "") = 1 ∧
    snippetsSort [] (.Raw "background-position" "") (.Raw "backgrounda" "") = -1 := by
  refine ⟨snippetsSort_of_lt ?_, snippetsSort_of_gt ?_, snippetsSort_of_lt ?_⟩ <;>
    (rw [String.lt_iff_toList_lt]; decide)

/-- Claim C6 (amended): the ascending code-point sort on key used by nest
places each shorthand property immediately before the run of its longhand
extensions, because hyphen sorts BEFORE letters: the comparator orders
background, background-position, background-position-x, border ascending,
the hyphen precedes every lowercase letter, and any property-shaped key
strictly between background and background-position is itself a
hyphen-extension of background. -/
theorem claim_C6 :
    snippetsSort [] (.Raw "background" "") (.Raw "background-position" "") = -1 ∧
    snippetsSort [] (.Raw "background-position" "") (.Raw "background-position-x" "") = -1 ∧
    snippetsSort [] (.Raw "background-position-x" "") (.Raw "border" "") = -1 ∧
    (∀ c : Char, 'a' ≤ c → c ≤ 'z' → ('-' : Char) < c) ∧
    (∀ q : String, OkChars q → "background" < q → q < "background-position" →
      HExt "background" q) := by
  refine ⟨snippetsSort_of_lt ?_, snippetsSort_of_lt ?_, snippetsSort_of_lt ?_, ?_, ?_⟩
  · rw [String.lt_iff_toList_lt]; decide
  · rw [String.lt_iff_toList_lt]; decide
  · rw [String.lt_iff_toList_lt]; decide
  · intro c h1 _
    exact lt_of_lt_of_le (by decide) h1
  · intro q hq h1 h2
    exact hext_between hq h1 h2 ⟨"position".data, by decide⟩

/-- Concrete instance for the quantified parts of claim C6: the hyphen
precedes the letter p, and background-p lies between background and
background-position and extends background with a hyphen. -/
theorem claim_C6_witness :
    ('-' : Char) < 'p' ∧ HExt "background" "background-p" :=
  ⟨claim_C6.2.2.2.1 'p' (by decide) (by decide),
   claim_C6.2.2.2.2 "background-p" (by decide)
     (by rw [String.lt_iff_toList_lt]; decide)
     (by rw [String.lt_iff_toList_lt]; decide)⟩

/-! ## nest: heap mutation lemmas -/

theorem pushDep_length (reg : List PropNode) (p c : Nat) :
    (pushDep reg p c).length = reg.length := by
  unfold pushDep
  split
  · rw [List.length_set]
  · rfl

theorem propOf_pushDep (reg : List PropNode) (p c i : Nat) :
    propOf (pushDep reg p c) i = propOf reg i := by
  unfold pushDep
  split
  · rename_i n hn
    unfold propOf
    rw [List.getD_eq_getElem?_getD, List.getD_eq_getElem?_getD]
    by_cases hip : i = p
    · subst hip
      have hi : i < reg.length := by
        rw [List.get?_eq_getElem?] at hn
        exact (List.getElem?_eq_some.1 hn).1
      rw [List.getElem?_set_self hi, List.getElem?_eq_getElem hi]
      have hval : reg[i] = n := by
        rw [List.get?_eq_getElem?, List.getElem?_eq_getElem hi] at hn
        exact Option.some.inj hn
      simp [hval]
    · rw [List.getElem?_set_ne (fun hc => hip hc.symm)]
  · rfl

theorem depsOf_pushDep_ne (reg : List PropNode) (p c i : Nat) (hip : i ≠ p) :
    depsOf (pushDep reg p c) i = depsOf reg i := by
  unfold pushDep
  split
  · unfold depsOf
    rw [List.getD_eq_getElem?_getD, List.getD_eq_getElem?_getD,
      List.getElem?_set_ne (fun hc => hip hc.symm)]
  · rfl

theorem depsOf_pushDep_self (reg : List PropNode) (p c : Nat) (hp : p < reg.length) :
    depsOf (pushDep reg p c) p = depsOf reg p ++ [c] := by
  unfold pushDep
  rw [show reg.get? p = some reg[p] by
    rw [List.get?_eq_getElem?, List.getElem?_eq_getElem hp]]
  unfold depsOf
  rw [List.getD_eq_getElem?_getD, List.getD_eq_getElem?_getD,
    List.getElem?_set_self hp, List.getElem?_eq_getElem hp]
  rfl

theorem mem_depsOf_pushDep {reg : List PropNode} {i j : Nat} (p c : Nat)
    (h : j ∈ depsOf reg i) : j ∈ depsOf (pushDep reg p c) i := by
  by_cases hip : i = p
  · subst hip
    by_cases hp : i < reg.length
    · rw [depsOf_pushDep_self reg i c hp]
      exact List.mem_append_left _ h
    · unfold pushDep
      rw [show reg.get? i = none by
        rw [List.get?_eq_getElem?, List.getElem?_eq_none (Nat.le_of_not_lt hp)]]
      exact h
  · rw [depsOf_pushDep_ne reg p c i hip]
    exact h

theorem mem_depsOf_pushDep_inv {reg : List PropNode} {p c i j : Nat}
    (h : j ∈ depsOf (pushDep reg p c) i) :
    j ∈ depsOf reg i ∨ (i = p ∧ j = c) := by
  by_cases hip : i = p
  · subst hip
    by_cases hp : i < reg.length
    · rw [depsOf_pushDep_self reg i c hp] at h
      rcases List.mem_append.1 h with h1 | h1
      · exact Or.inl h1
      · exact Or.inr ⟨rfl, List.mem_singleton.1 h1⟩
    · unfold pushDep at h
      rw [show reg.get? i = none by
        rw [List.get?_eq_getElem?, List.getElem?_eq_none (Nat.le_of_not_lt hp)]] at h
      exact Or.inl h
  · rw [depsOf_pushDep_ne reg p c i hip] at h
    exact Or.inl h

theorem edge_pushDep_new (reg : List PropNode) (p c : Nat) (hp : p < reg.length) :
    c ∈ depsOf (pushDep reg p c) p := by
  rw [depsOf_pushDep_self reg p c hp]
  exact List.mem_append_right _ (List.mem_singleton.2 rfl)

/-! ## nestAttach / nestProps structure lemmas -/

theorem nestAttach_length (reg : List PropNode) (cur : Nat) :
    ∀ stack, (nestAttach reg cur stack).1.length = reg.length := by
  intro stack
  induction stack with
  | nil => rfl
  | cons prev rest ih =>
    unfold nestAttach
    split
    · exact pushDep_length reg prev cur
    · exact ih

theorem propOf_nestAttach (reg : List PropNode) (cur : Nat) :
    ∀ stack i, propOf (nestAttach reg cur stack).1 i = propOf reg i := by
  intro stack
  induction stack with
  | nil => intro i; rfl
  | cons prev rest ih =>
    intro i
    unfold nestAttach
    split
    · exact propOf_pushDep reg prev cur i
    · exact ih i

theorem mem_depsOf_nestAttach {reg : List PropNode} (cur : Nat) :
    ∀ stack {i j : Nat}, j ∈ depsOf reg i → j ∈ depsOf (nestAttach reg cur stack).1 i := by
  intro stack
  induction stack with
  | nil => intro i j h; exact h
  | cons prev rest ih =>
    intro i j h
    unfold nestAttach
    split
    · exact mem_depsOf_pushDep prev cur h
    · exact ih h

theorem nestAttach_edges {reg : List PropNode} (cur : Nat) :
    ∀ stack {i j : Nat}, j ∈ depsOf (nestAttach reg cur stack).1 i →
      j ∈ depsOf reg i ∨
        (j = cur ∧ isDepMatch (propOf reg cur) (propOf reg i) = true) := by
  intro stack
  induction stack with
  | nil => intro i j h; exact Or.inl h
  | cons prev rest ih =>
    intro i j h
    unfold nestAttach at h
    split at h
    · rename_i hguard
      rcases mem_depsOf_pushDep_inv h with h1 | ⟨h1, h2⟩
      · exact Or.inl h1
      · subst h1
        exact Or.inr ⟨h2, hguard⟩
    · exact ih h

theorem nestProps_length (reg : List PropNode) :
    ∀ props stack, (nestProps reg props stack).1.length = reg.length := by
  intro props
  induction props generalizing reg with
  | nil => intro stack; rfl
  | cons cur rest ih =>
    intro stack
    show (nestProps (nestAttach reg cur stack).1 rest (nestAttach reg cur stack).2).1.length = _
    rw [ih, nestAttach_length]

theorem propOf_nestProps (reg : List PropNode) :
    ∀ props stack i, propOf (nestProps reg props stack).1 i = propOf reg i := by
  intro props
  induction props generalizing reg with
  | nil => intro stack i; rfl
  | cons cur rest ih =>
    intro stack i
    show propOf (nestProps (nestAttach reg cur stack).1 rest (nestAttach reg cur stack).2).1 i = _
    rw [ih, propOf_nestAttach]

theorem mem_depsOf_nestProps (reg : List PropNode) :
    ∀ props stack {i j : Nat}, j ∈ depsOf reg i →
      j ∈ depsOf (nestProps reg props stack).1 i := by
  intro props
  induction props generalizing reg with
  | nil => intro stack i j h; exact h
  | cons cur rest ih =>
    intro stack i j h
    show j ∈ depsOf (nestProps (nestAttach reg cur stack).1 rest (nestAttach reg cur stack).2).1 i
    exact ih _ _ (mem_depsOf_nestAttach cur stack h)

theorem nestProps_edges (reg : List PropNode) :
    ∀ props stack {i j : Nat}, j ∈ depsOf (nestProps reg props stack).1 i →
      j ∈ depsOf reg i ∨
        (∃ cur ∈ props, j = cur ∧ isDepMatch (propOf reg cur) (propOf reg i) = true) := by
  intro props
  induction props generalizing reg with
  | nil => intro stack i j h; exact Or.inl h
  | cons cur rest ih =>
    intro stack i j h
    have h0 : j ∈ depsOf (nestProps (nestAttach reg cur stack).1 rest
        (nestAttach reg cur stack).2).1 i := h
    rcases ih _ _ h0 with h1 | ⟨c, hc, h2, h3⟩
    · rcases nestAttach_edges cur stack h1 with h2 | ⟨h2, h3⟩
      · exact Or.inl h2
      · exact Or.inr ⟨cur, List.mem_cons_self _ _, h2, h3⟩
    · rw [propOf_nestAttach, propOf_nestAttach] at h3
      exact Or.inr ⟨c, List.mem_cons_of_mem _ hc, h2, h3⟩

/-! ## Claim C7 -/

theorem take_eq_of_jsStartsWith {pa pb : String} (h : jsStartsWith pb pa = true) :
    pb.data.take pa.data.length = pa.data := by
  unfold jsStartsWith at h
  exact eq_of_beq h

theorem length_le_of_jsStartsWith {pa pb : String} (h : jsStartsWith pb pa = true) :
    pa.data.length ≤ pb.data.length := by
  have ht := take_eq_of_jsStartsWith h
  have := congrArg List.length ht
  rw [List.length_take] at this
  omega

theorem isDepMatch_false_rev {pa pb : String} (hstart : jsStartsWith pb pa = true)
    (hnohyp : charCode45 pb pa.length = false) : isDepMatch pa pb = false := by
  have hle : pa.data.length ≤ pb.data.length := length_le_of_jsStartsWith hstart
  rcases Nat.lt_or_ge pa.data.length pb.data.length with hlt | hge
  · -- pb is strictly longer than pa, so pa cannot start with pb
    unfold isDepMatch jsStartsWith
    have ht : pa.data.take pb.data.length = pa.data := List.take_of_length_le (le_of_lt hlt)
    rw [ht]
    have hne : pa.data ≠ pb.data := by
      intro hc
      rw [hc] at hlt
      exact lt_irrefl _ hlt
    rw [Bool.and_eq_false_iff]
    left
    exact beq_eq_false_iff_ne.2 hne
  · -- equal lengths: pa = pb, and the boundary test is off the end
    have hlen : pa.data.length = pb.data.length := le_antisymm hle hge
    have heq : pa.data = pb.data := by
      have ht := take_eq_of_jsStartsWith hstart
      rw [hlen, List.take_length] at ht
      exact ht.symm
    have hstr : pa = pb := String.toList_inj.1 heq
    unfold isDepMatch
    rw [Bool.and_eq_false_iff]
    right
    rw [← hstr]
    rw [← hstr] at hnohyp
    exact hnohyp

/-- Claim C7: two Property snippets whose names share a prefix without a
hyphen at the boundary (the startsWith test succeeds but the character at
the boundary is not a hyphen) are never linked by nest, in either
direction: nest adds no dependency edge between them. -/
theorem claim_C7 (reg : List PropNode) (snippets : List SnippetRef) (ia ib : Nat)
    (hstart : jsStartsWith (propOf reg ib) (propOf reg ia) = true)
    (hnohyp : charCode45 (propOf reg ib) (propOf reg ia).length = false) :
    (ib ∈ depsOf (nest reg snippets).1 ia → ib ∈ depsOf reg ia) ∧
    (ia ∈ depsOf (nest reg snippets).1 ib → ia ∈ depsOf reg ib) := by
  have hmatch1 : isDepMatch (propOf reg ib) (propOf reg ia) = false := by
    unfold isDepMatch
    rw [hstart, hnohyp]
    rfl
  have hmatch2 : isDepMatch (propOf reg ia) (propOf reg ib) = false :=
    isDepMatch_false_rev hstart hnohyp
  constructor
  · intro h
    have h0 : ib ∈ depsOf (nestProps reg
        ((sortSnippets reg snippets).filterMap propIndex) []).1 ia := h
    rcases nestProps_edges reg _ _ h0 with h1 | ⟨c, _, h2, h3⟩
    · exact h1
    · subst h2
      rw [hmatch1] at h3
      cases h3
  · intro h
    have h0 : ia ∈ depsOf (nestProps reg
        ((sortSnippets reg snippets).filterMap propIndex) []).1 ib := h
    rcases nestProps_edges reg _ _ h0 with h1 | ⟨c, _, h2, h3⟩
    · exact h1
    · subst h2
      rw [hmatch2] at h3
      cases h3

/-- Concrete instance for claim C7: border and borderx share the prefix
border without a hyphen boundary and nest links neither under the other
(their dependency lists start and stay empty). -/
theorem claim_C7_witness :
    jsStartsWith "borderx" "border" = true ∧
    charCode45 "borderx" ("border").length = false ∧
    (1 ∈ depsOf (nest
        [{ key := "border", property := "border", value := [], dependencies := [] },
         { key := "borderx", property := "borderx", value := [], dependencies := [] }]
        [.Property 0, .Property 1]).1 0 →
      1 ∈ depsOf
        [{ key := "border", property := "border", value := [], dependencies := [] },
         { key := "borderx", property := "borderx", value := [], dependencies := [] }] 0) ∧
    (0 ∈ depsOf (nest
        [{ key := "border", property := "border", value := [], dependencies := [] },
         { key := "borderx", property := "borderx", value := [], dependencies := [] }]
        [.Property 0, .Property 1]).1 1 →
      0 ∈ depsOf
        [{ key := "border", property := "border", value := [], dependencies := [] },
         { key := "borderx", property := "borderx", value := [], dependencies := [] }] 1) := by
  refine ⟨by decide, by decide, ?_⟩
  exact claim_C7
    [{ key := "border", property := "border", value := [], dependencies := [] },
     { key := "borderx", property := "borderx", value := [], dependencies := [] }]
    [.Property 0, .Property 1] 0 1 (by decide) (by decide)

/-! ## Stack invariants for the nesting algorithm -/

/-- The ancestor stack (top of stack first): each element extends the one
below it by a hyphen and has been recorded in its dependency list. -/
def StackOK (reg : List PropNode) (stack : List Nat) : Prop :=
  List.Chain' (fun above below =>
    HExt (propOf reg below) (propOf reg above) ∧ above ∈ depsOf reg below) stack

theorem stackOK_mono {reg reg1 : List PropNode} {stack : List Nat}
    (hprop : ∀ i, propOf reg1 i = propOf reg i)
    (hdeps : ∀ i j, j ∈ depsOf reg i → j ∈ depsOf reg1 i)
    (h : StackOK reg stack) : StackOK reg1 stack := by
  refine List.Chain'.imp ?_ h
  intro a b hab
  rw [hprop, hprop]
  exact ⟨hab.1, hdeps _ _ hab.2⟩

theorem stack_reach {reg : List PropNode} :
    ∀ post prev, StackOK reg (prev :: post) →
      ∀ a ∈ prev :: post, Relation.ReflTransGen (EdgeR reg) a prev := by
  intro post
  induction post with
  | nil =>
    intro prev _ a ha
    rw [List.mem_singleton.1 ha]
  | cons w post2 ih =>
    intro prev h a ha
    rcases List.mem_cons.1 ha with rfl | ha2
    · exact Relation.ReflTransGen.refl
    · have hcc := List.chain'_cons.1 h
      have hr : Relation.ReflTransGen (EdgeR reg) a w := ih w hcc.2 a ha2
      exact hr.tail hcc.1.2

theorem exists_first_split {α : Type} (f : α → Bool) :
    ∀ l : List α, (∃ x ∈ l, f x = true) →
      ∃ pre y post, l = pre ++ y :: post ∧ f y = true ∧ ∀ z ∈ pre, f z = false := by
  intro l
  induction l with
  | nil => rintro ⟨x, hx, _⟩; cases hx
  | cons a rest ih =>
    intro hex
    by_cases ha : f a = true
    · exact ⟨[], a, rest, rfl, ha, by intro z hz; cases hz⟩
    · have hfa : f a = false := Bool.eq_false_iff.2 ha
      have hex2 : ∃ x ∈ rest, f x = true := by
        obtain ⟨x, hx, hfx⟩ := hex
        rcases List.mem_cons.1 hx with rfl | hx2
        · exact absurd hfx ha
        · exact ⟨x, hx2, hfx⟩
      obtain ⟨pre, y, post, hsplit, hy, hpre⟩ := ih hex2
      refine ⟨a :: pre, y, post, by rw [hsplit]; rfl, hy, ?_⟩
      intro z hz
      rcases List.mem_cons.1 hz with rfl | hz2
      · exact hfa
      · exact hpre z hz2

theorem nestAttach_no_match (reg : List PropNode) (cur : Nat) :
    ∀ stack, (∀ x ∈ stack, isDepMatch (propOf reg cur) (propOf reg x) = false) →
      nestAttach reg cur stack = (reg, [cur]) := by
  intro stack
  induction stack with
  | nil => intro _; rfl
  | cons prev rest ih =>
    intro h
    have hp := h prev (List.mem_cons_self _ _)
    show (if isDepMatch (propOf reg cur) (propOf reg prev) then
        (pushDep reg prev cur, cur :: prev :: rest)
      else nestAttach reg cur rest) = (reg, [cur])
    rw [hp, if_neg (by decide)]
    exact ih (fun x hx => h x (List.mem_cons_of_mem _ hx))

theorem nestAttach_found (reg : List PropNode) (cur : Nat) :
    ∀ pre prev post,
      (∀ x ∈ pre, isDepMatch (propOf reg cur) (propOf reg x) = false) →
      isDepMatch (propOf reg cur) (propOf reg prev) = true →
      nestAttach reg cur (pre ++ prev :: post) =
        (pushDep reg prev cur, cur :: prev :: post) := by
  intro pre
  induction pre with
  | nil =>
    intro prev post _ hm
    show (if isDepMatch (propOf reg cur) (propOf reg prev) then
        (pushDep reg prev cur, cur :: prev :: post)
      else nestAttach reg cur post) = _
    rw [hm, if_pos rfl]
  | cons z pre2 ih =>
    intro prev post hpre hm
    have hz := hpre z (List.mem_cons_self _ _)
    show (if isDepMatch (propOf reg cur) (propOf reg z) then
        (pushDep reg z cur, cur :: z :: (pre2 ++ prev :: post))
      else nestAttach reg cur (pre2 ++ prev :: post)) = _
    rw [hz, if_neg (by decide)]
    exact ih prev post (fun x hx => hpre x (List.mem_cons_of_mem _ hx)) hm

theorem string_length_data (s : String) : s.length = s.data.length := rfl

theorem isDepMatch_iff_hext {a b : String} : isDepMatch b a = true ↔ HExt a b := by
  constructor
  · intro h
    rw [isDepMatch, Bool.and_eq_true] at h
    have htake : b.data.take a.data.length = a.data := eq_of_beq h.1
    have h2 := h.2
    unfold charCode45 at h2
    rw [string_length_data] at h2
    cases hg : b.data.get? a.data.length with
    | none => rw [hg] at h2; cases h2
    | some c =>
      rw [hg] at h2
      have hc : c.toNat = 45 := by
        have := eq_of_beq h2
        exact this
      have hc2 : c = '-' := by
        rw [← Char.ofNat_toNat c, hc]
      rw [List.get?_eq_getElem?] at hg
      have hlt : a.data.length < b.data.length := (List.getElem?_eq_some.1 hg).1
      refine ⟨b.data.drop (a.data.length + 1), ?_⟩
      have hbc : b.data[a.data.length] = c := by
        obtain ⟨hh, hv⟩ := List.getElem?_eq_some.1 hg
        exact hv
      calc b.data
          = b.data.take a.data.length ++ b.data.drop a.data.length :=
            (List.take_append_drop _ _).symm
        _ = a.data ++ b.data.drop a.data.length := by rw [htake]
        _ = a.data ++ (b.data[a.data.length] :: b.data.drop (a.data.length + 1)) := by
            rw [← List.drop_eq_getElem_cons hlt]
        _ = a.data ++ '-' :: b.data.drop (a.data.length + 1) := by rw [hbc, hc2]
  · rintro ⟨r, hr⟩
    rw [isDepMatch, Bool.and_eq_true]
    constructor
    · unfold jsStartsWith
      rw [hr, List.take_left' rfl]
      exact beq_self_eq_true a.data
    · unfold charCode45
      rw [string_length_data, hr, List.get?_eq_getElem?,
        List.getElem?_append_right (le_refl a.data.length)]
      simp

/-- Master invariant theorem for the nesting loop: processing the sorted
property list with the ancestor stack links every hyphen-extension pair of
the processed prefix, provided the properties are strictly sorted, in range,
and built from the reProperty alphabet. -/
theorem nestProps_master (reg0 : List PropNode) (props : List Nat)
    (hrange : ∀ i ∈ props, i < reg0.length)
    (halph : ∀ i ∈ props, OkChars (propOf reg0 i))
    (hpair : props.Pairwise (fun i j => propOf reg0 i < propOf reg0 j)) :
    ∀ todo done stack reg,
      props = done ++ todo →
      (∀ i, propOf reg i = propOf reg0 i) →
      reg.length = reg0.length →
      StackOK reg stack →
      (∀ x ∈ stack, x ∈ done) →
      (∀ a ∈ done, (∀ d ∈ done, propOf reg0 a < propOf reg0 d →
          HExt (propOf reg0 a) (propOf reg0 d)) → a ∈ stack) →
      (∀ a b, a ∈ done → b ∈ done → HExt (propOf reg0 a) (propOf reg0 b) →
        Relation.TransGen (EdgeR reg) a b) →
      ∀ a b, a ∈ props → b ∈ props → HExt (propOf reg0 a) (propOf reg0 b) →
        Relation.TransGen (EdgeR (nestProps reg todo stack).1) a b := by
  intro todo
  induction todo with
  | nil =>
    intro done stack reg hsplit hprop hlen hstack hsub hpresence hTG a b ha hb hext
    have hd : props = done := by rw [hsplit, List.append_nil]
    exact hTG a b (hd ▸ ha) (hd ▸ hb) hext
  | cons cur rest ih =>
    intro done stack reg hsplit hprop hlen hstack hsub hpresence hTG a b ha hb hext
    have hp2 : (done ++ cur :: rest).Pairwise (fun i j => propOf reg0 i < propOf reg0 j) := by
      rw [← hsplit]; exact hpair
    obtain ⟨hpdone, hpcr, hcross⟩ := List.pairwise_append.1 hp2
    have hdone_sub : ∀ x ∈ done, x ∈ props := by
      intro x hx; rw [hsplit]; exact List.mem_append_left _ hx
    have hlt_cur : ∀ d ∈ done, propOf reg0 d < propOf reg0 cur :=
      fun d hd => hcross d hd cur (List.mem_cons_self _ _)
    have hmatch_iff : ∀ x, isDepMatch (propOf reg cur) (propOf reg x) = true ↔
        HExt (propOf reg0 x) (propOf reg0 cur) := by
      intro x
      rw [hprop, hprop]
      exact isDepMatch_iff_hext
    have hstack_of_hext : ∀ a2 ∈ done,
        HExt (propOf reg0 a2) (propOf reg0 cur) → a2 ∈ stack := by
      intro a2 ha2 hext2
      refine hpresence a2 ha2 ?_
      intro d hd hltad
      exact hext_between (halph d (hdone_sub d hd)) hltad (hlt_cur d hd) hext2
    by_cases hex : ∃ x ∈ stack, isDepMatch (propOf reg cur) (propOf reg x) = true
    · -- the loop finds a matching ancestor on the stack
      obtain ⟨pre, prev, post, hsdec, hprevm, hprem⟩ :=
        exists_first_split (fun x => isDepMatch (propOf reg cur) (propOf reg x)) stack hex
      have hprev_stack : prev ∈ stack := by
        rw [hsdec]; exact List.mem_append_right _ (List.mem_cons_self _ _)
      have hprev_done : prev ∈ done := hsub prev hprev_stack
      have hprev_lt : prev < reg.length := by
        rw [hlen]; exact hrange prev (hdone_sub prev hprev_done)
      have hfound := nestAttach_found reg cur pre prev post hprem hprevm
      have hred : nestProps reg (cur :: rest) stack =
          nestProps (pushDep reg prev cur) rest (cur :: prev :: post) := by
        show nestProps (nestAttach reg cur stack).1 rest (nestAttach reg cur stack).2 = _
        rw [hsdec, hfound]
      rw [hred]
      have hprop1 : ∀ i, propOf (pushDep reg prev cur) i = propOf reg0 i := by
        intro i; rw [propOf_pushDep]; exact hprop i
      have hlen1 : (pushDep reg prev cur).length = reg0.length := by
        rw [pushDep_length]; exact hlen
      have hchain_old : StackOK reg (prev :: post) := by
        have hs2 := hstack
        rw [StackOK, hsdec] at hs2
        exact (List.chain'_append.1 hs2).2.1
      have hedge_new : cur ∈ depsOf (pushDep reg prev cur) prev :=
        edge_pushDep_new reg prev cur hprev_lt
      have hprev_hext : HExt (propOf reg0 prev) (propOf reg0 cur) :=
        (hmatch_iff prev).1 hprevm
      have hmono : ∀ x y, EdgeR reg x y → EdgeR (pushDep reg prev cur) x y :=
        fun x y h => mem_depsOf_pushDep prev cur h
      have hstack1 : StackOK (pushDep reg prev cur) (cur :: prev :: post) := by
        rw [StackOK, List.chain'_cons]
        constructor
        · rw [hprop1, hprop1, hprop cur, hprop prev] at *
          exact ⟨hprev_hext, hedge_new⟩
        · exact stackOK_mono (fun i => propOf_pushDep reg prev cur i) hmono hchain_old
      have hsub1 : ∀ x ∈ cur :: prev :: post, x ∈ done ++ [cur] := by
        intro x hx
        rcases List.mem_cons.1 hx with rfl | hx2
        · exact List.mem_append_right _ (List.mem_singleton.2 rfl)
        · have hxs : x ∈ stack := by
            rw [hsdec]
            exact List.mem_append_right _ hx2
          exact List.mem_append_left _ (hsub x hxs)
      have hpres1 : ∀ a2 ∈ done ++ [cur],
          (∀ d ∈ done ++ [cur], propOf reg0 a2 < propOf reg0 d →
            HExt (propOf reg0 a2) (propOf reg0 d)) → a2 ∈ cur :: prev :: post := by
        intro a2 ha2 hforall
        rcases List.mem_append.1 ha2 with ha2d | ha2c
        · have hext2 : HExt (propOf reg0 a2) (propOf reg0 cur) :=
            hforall cur (List.mem_append_right _ (List.mem_singleton.2 rfl))
              (hlt_cur a2 ha2d)
          have ha2stack : a2 ∈ stack := hstack_of_hext a2 ha2d hext2
          have ha2match : isDepMatch (propOf reg cur) (propOf reg a2) = true :=
            (hmatch_iff a2).2 hext2
          rw [hsdec] at ha2stack
          rcases List.mem_append.1 ha2stack with hin | hin
          · rw [hprem a2 hin] at ha2match; cases ha2match
          · exact List.mem_cons_of_mem _ hin
        · rw [List.mem_singleton.1 ha2c]
          exact List.mem_cons_self _ _
      have hTG1 : ∀ a2 b2, a2 ∈ done ++ [cur] → b2 ∈ done ++ [cur] →
          HExt (propOf reg0 a2) (propOf reg0 b2) →
          Relation.TransGen (EdgeR (pushDep reg prev cur)) a2 b2 := by
        intro a2 b2 ha2 hb2 hext2
        rcases List.mem_append.1 ha2 with ha2d | ha2c
        · rcases List.mem_append.1 hb2 with hb2d | hb2c
          · exact Relation.TransGen.mono hmono (hTG a2 b2 ha2d hb2d hext2)
          · rw [List.mem_singleton.1 hb2c] at hext2 ⊢
            have ha2stack : a2 ∈ stack := hstack_of_hext a2 ha2d hext2
            have ha2match : isDepMatch (propOf reg cur) (propOf reg a2) = true :=
              (hmatch_iff a2).2 hext2
            rw [hsdec] at ha2stack
            rcases List.mem_append.1 ha2stack with hin | hin
            · rw [hprem a2 hin] at ha2match; cases ha2match
            · have hrtg : Relation.ReflTransGen (EdgeR reg) a2 prev :=
                stack_reach post prev hchain_old a2 hin
              have hrtg1 : Relation.ReflTransGen (EdgeR (pushDep reg prev cur)) a2 prev :=
                Relation.ReflTransGen.mono hmono hrtg
              exact Relation.TransGen.tail' hrtg1 hedge_new
        · rw [List.mem_singleton.1 ha2c] at hext2
          rcases List.mem_append.1 hb2 with hb2d | hb2c
          · exact absurd (hext_lt hext2) (lt_asymm (hlt_cur b2 hb2d))
          · rw [List.mem_singleton.1 hb2c] at hext2
            exact absurd (hext_lt hext2) (lt_irrefl _)
      exact ih (done ++ [cur]) (cur :: prev :: post) (pushDep reg prev cur)
        (by rw [hsplit, List.append_assoc]; rfl) hprop1 hlen1 hstack1 hsub1 hpres1 hTG1
        a b ha hb hext
    · -- no ancestor matches: the stack empties and cur becomes a root
      have hnone : ∀ x ∈ stack, isDepMatch (propOf reg cur) (propOf reg x) = false := by
        intro x hx
        rcases Bool.eq_false_or_eq_true (isDepMatch (propOf reg cur) (propOf reg x)) with
          h | h
        · exact absurd ⟨x, hx, h⟩ hex
        · exact h
      have hred : nestProps reg (cur :: rest) stack = nestProps reg rest [cur] := by
        show nestProps (nestAttach reg cur stack).1 rest (nestAttach reg cur stack).2 = _
        rw [nestAttach_no_match reg cur stack hnone]
      rw [hred]
      have hstack1 : StackOK reg [cur] := List.chain'_singleton _
      have hsub1 : ∀ x ∈ [cur], x ∈ done ++ [cur] := by
        intro x hx
        rw [List.mem_singleton.1 hx]
        exact List.mem_append_right _ (List.mem_singleton.2 rfl)
      have hpres1 : ∀ a2 ∈ done ++ [cur],
          (∀ d ∈ done ++ [cur], propOf reg0 a2 < propOf reg0 d →
            HExt (propOf reg0 a2) (propOf reg0 d)) → a2 ∈ [cur] := by
        intro a2 ha2 hforall
        rcases List.mem_append.1 ha2 with ha2d | ha2c
        · exfalso
          have hext2 : HExt (propOf reg0 a2) (propOf reg0 cur) :=
            hforall cur (List.mem_append_right _ (List.mem_singleton.2 rfl))
              (hlt_cur a2 ha2d)
          have ha2stack : a2 ∈ stack := hstack_of_hext a2 ha2d hext2
          have ha2match := (hmatch_iff a2).2 hext2
          rw [hnone a2 ha2stack] at ha2match
          cases ha2match
        · exact ha2c
      have hTG1 : ∀ a2 b2, a2 ∈ done ++ [cur] → b2 ∈ done ++ [cur] →
          HExt (propOf reg0 a2) (propOf reg0 b2) →
          Relation.TransGen (EdgeR reg) a2 b2 := by
        intro a2 b2 ha2 hb2 hext2
        rcases List.mem_append.1 ha2 with ha2d | ha2c
        · rcases List.mem_append.1 hb2 with hb2d | hb2c
          · exact hTG a2 b2 ha2d hb2d hext2
          · exfalso
            rw [List.mem_singleton.1 hb2c] at hext2
            have ha2stack := hstack_of_hext a2 ha2d hext2
            have ha2match := (hmatch_iff a2).2 hext2
            rw [hnone a2 ha2stack] at ha2match
            cases ha2match
        · exfalso
          rw [List.mem_singleton.1 ha2c] at hext2
          rcases List.mem_append.1 hb2 with hb2d | hb2c
          · exact absurd (hext_lt hext2) (lt_asymm (hlt_cur b2 hb2d))
          · rw [List.mem_singleton.1 hb2c] at hext2
            exact absurd (hext_lt hext2) (lt_irrefl _)
      exact ih (done ++ [cur]) [cur] reg
        (by rw [hsplit, List.append_assoc]; rfl) hprop hlen hstack1 hsub1 hpres1 hTG1
        a b ha hb hext

theorem mem_filterMap_propIndex (l : List SnippetRef) (i : Nat) :
    i ∈ l.filterMap propIndex ↔ SnippetRef.Property i ∈ l := by
  rw [List.mem_filterMap]
  constructor
  · rintro ⟨s, hs, hsome⟩
    cases s with
    | Raw k v => cases hsome
    | Property j =>
      have hj : j = i := Option.some.inj hsome
      exact hj ▸ hs
  · intro h
    exact ⟨.Property i, h, rfl⟩

/-- Claim C1 (amended): consider an input list whose Property snippets all
have key equal to property, pairwise distinct property names, and property
names drawn from the reProperty alphabet of lowercase letters and hyphens.
For any two Property snippets a (heap index ia) and b (heap index ib) in
the list such that b.property begins with a.property followed by a hyphen,
after nest() returns, b is reachable from a through the dependency edges
(in one or more steps), and a occurs before b in the returned list. -/
theorem claim_C1 (reg : List PropNode) (snippets : List SnippetRef) (ia ib : Nat)
    (hgood : ∀ i ∈ snippets.filterMap propIndex,
      i < reg.length ∧ keyOf reg (.Property i) = propOf reg i ∧ OkChars (propOf reg i))
    (hdistinct : ((snippets.filterMap propIndex).map (propOf reg)).Nodup)
    (hia : SnippetRef.Property ia ∈ snippets)
    (hib : SnippetRef.Property ib ∈ snippets)
    (hm : isDepMatch (propOf reg ib) (propOf reg ia) = true) :
    Relation.TransGen (EdgeR (nest reg snippets).1) ia ib ∧
    ∃ n m : Nat, ∃ hn : n < (nest reg snippets).2.length,
      ∃ hm2 : m < (nest reg snippets).2.length,
      n < m ∧ (nest reg snippets).2[n] = SnippetRef.Property ia ∧
        (nest reg snippets).2[m] = SnippetRef.Property ib := by
  have hext : HExt (propOf reg ia) (propOf reg ib) := isDepMatch_iff_hext.1 hm
  have hperm : (sortSnippets reg snippets).Perm snippets := List.mergeSort_perm _ _
  have hpermfm : ((sortSnippets reg snippets).filterMap propIndex).Perm
      (snippets.filterMap propIndex) := hperm.filterMap _
  have hgood2 : ∀ i ∈ (sortSnippets reg snippets).filterMap propIndex,
      i < reg.length ∧ keyOf reg (.Property i) = propOf reg i ∧ OkChars (propOf reg i) :=
    fun i hi => hgood i (hpermfm.mem_iff.1 hi)
  have hrange : ∀ i ∈ (sortSnippets reg snippets).filterMap propIndex, i < reg.length :=
    fun i hi => (hgood2 i hi).1
  have halph : ∀ i ∈ (sortSnippets reg snippets).filterMap propIndex,
      OkChars (propOf reg i) := fun i hi => (hgood2 i hi).2.2
  have hsort : (sortSnippets reg snippets).Pairwise
      (fun a b => snippetsSort reg a b ≤ 0) := sortSnippets_pairwise reg snippets
  have hple : ((sortSnippets reg snippets).filterMap propIndex).Pairwise
      (fun i j => keyOf reg (.Property i) ≤ keyOf reg (.Property j)) := by
    refine List.Pairwise.filterMap propIndex ?_ hsort
    intro s t hst i hi j hj
    cases s with
    | Raw k v => cases hi
    | Property x =>
      cases t with
      | Raw k v => cases hj
      | Property y =>
        have hx : x = i := Option.some.inj hi
        have hy : y = j := Option.some.inj hj
        subst hx; subst hy
        exact (snippetsSort_le_iff reg _ _).1 hst
  have hple2 : ((sortSnippets reg snippets).filterMap propIndex).Pairwise
      (fun i j => propOf reg i ≤ propOf reg j) := by
    refine List.Pairwise.imp_of_mem ?_ hple
    intro i j hi hj h
    rw [(hgood2 i hi).2.1, (hgood2 j hj).2.1] at h
    exact h
  have hnodup2 : (((sortSnippets reg snippets).filterMap propIndex).map
      (propOf reg)).Nodup := (List.Perm.nodup_iff (hpermfm.map _)).2 hdistinct
  have hne2 : ((sortSnippets reg snippets).filterMap propIndex).Pairwise
      (fun i j => propOf reg i ≠ propOf reg j) := by
    have hnodup3 : (((sortSnippets reg snippets).filterMap propIndex).map
        (propOf reg)).Pairwise (fun a b => a ≠ b) := hnodup2
    exact List.pairwise_map.1 hnodup3
  have hplt : ((sortSnippets reg snippets).filterMap propIndex).Pairwise
      (fun i j => propOf reg i < propOf reg j) :=
    (hple2.and hne2).imp (fun h => lt_of_le_of_ne h.1 h.2)
  have hia_s : SnippetRef.Property ia ∈ sortSnippets reg snippets := hperm.mem_iff.2 hia
  have hib_s : SnippetRef.Property ib ∈ sortSnippets reg snippets := hperm.mem_iff.2 hib
  have hia_p : ia ∈ (sortSnippets reg snippets).filterMap propIndex :=
    (mem_filterMap_propIndex _ _).2 hia_s
  have hib_p : ib ∈ (sortSnippets reg snippets).filterMap propIndex :=
    (mem_filterMap_propIndex _ _).2 hib_s
  constructor
  · exact nestProps_master reg ((sortSnippets reg snippets).filterMap propIndex)
      hrange halph hplt ((sortSnippets reg snippets).filterMap propIndex) [] [] reg
      (List.nil_append _).symm (fun i => rfl) rfl List.chain'_nil
      (fun x hx => absurd hx (List.not_mem_nil x))
      (fun a ha _ => absurd ha (List.not_mem_nil a))
      (fun a b ha _ _ => absurd ha (List.not_mem_nil a))
      ia ib hia_p hib_p hext
  · have hne_ab : propOf reg ia ≠ propOf reg ib := hext_ne hext
    obtain ⟨n, hn, hgn⟩ := List.getElem_of_mem hia_s
    obtain ⟨m, hm2, hgm⟩ := List.getElem_of_mem hib_s
    have hnm : n < m := by
      rcases lt_trichotomy n m with h | h | h
      · exact h
      · exfalso
        subst h
        have heq : SnippetRef.Property ia = SnippetRef.Property ib := hgn.symm.trans hgm
        have : ia = ib := by cases heq; rfl
        exact hne_ab (by rw [this])
      · exfalso
        have hps := List.pairwise_iff_getElem.1 hsort m n hm2 hn h
        rw [hgm, hgn] at hps
        have hle := (snippetsSort_le_iff reg _ _).1 hps
        rw [(hgood2 ib hib_p).2.1, (hgood2 ia hia_p).2.1] at hle
        exact absurd (hext_lt hext) (not_lt_of_le hle)
    exact ⟨n, m, hn, hm2, hnm, hgn, hgm⟩

/-- The heap of the concrete nesting example: background,
background-position, background-position-x, border, keys equal to
properties. -/
def bgReg : List PropNode :=
  [{ key := "background", property := "background", value := [], dependencies := [] },
   { key := "background-position", property := "background-position", value := [],
     dependencies := [] },
   { key := "background-position-x", property := "background-position-x", value := [],
     dependencies := [] },
   { key := "border", property := "border", value := [], dependencies := [] }]

/-- Concrete instance for claim C1 (amended): in the background example the
property background-position-x (index 2) begins with background (index 0)
plus hyphen material, and after nest it is reachable from background, which
occurs before it in the returned list. -/
theorem claim_C1_witness :
    isDepMatch (propOf bgReg 2) (propOf bgReg 0) = true ∧
    (Relation.TransGen
        (EdgeR (nest bgReg [.Property 0, .Property 1, .Property 2, .Property 3]).1) 0 2 ∧
      ∃ n m : Nat,
        ∃ hn : n < (nest bgReg [.Property 0, .Property 1, .Property 2, .Property 3]).2.length,
        ∃ hm2 : m < (nest bgReg [.Property 0, .Property 1, .Property 2, .Property 3]).2.length,
        n < m ∧
          (nest bgReg [.Property 0, .Property 1, .Property 2, .Property 3]).2[n] =
            SnippetRef.Property 0 ∧
          (nest bgReg [.Property 0, .Property 1, .Property 2, .Property 3]).2[m] =
            SnippetRef.Property 2) :=
  ⟨by decide,
   claim_C1 bgReg [.Property 0, .Property 1, .Property 2, .Property 3] 0 2
     (by decide) (by decide) (by decide) (by decide) (by decide)⟩

theorem no_transGen_of_empty {reg : List PropNode} (h : ∀ i, depsOf reg i = []) :
    ∀ a b : Nat, ¬ Relation.TransGen (EdgeR reg) a b := by
  intro a b hc
  induction hc with
  | single h1 =>
    unfold EdgeR at h1
    rw [h a] at h1
    cases h1
  | tail h1 h2 ih =>
    unfold EdgeR at h2
    rw [h _] at h2
    cases h2

/-- The heap of the key-alias counterexample: node 0 is registered under
key z but its property is a; node 1 has key and property a-b. -/
def cexReg : List PropNode :=
  [{ key := "z", property := "a", value := [], dependencies := [] },
   { key := "a-b", property := "a-b", value := [], dependencies := [] }]

/-- Claim C1 counterexample: node 1's property a-b begins with node 0's
property a followed by a hyphen, yet nest (which sorts by key, here z and
a-b) returns the list with node 0 AFTER node 1 and creates no dependency
path from node 0 to node 1: the claim fails when key and property differ. -/
theorem claim_C1_counterexample :
    isDepMatch (propOf cexReg 1) (propOf cexReg 0) = true ∧
    (nest cexReg [.Property 1, .Property 0]).2 = [.Property 1, .Property 0] ∧
    ¬ Relation.TransGen (EdgeR (nest cexReg [.Property 1, .Property 0]).1) 0 1 := by
  have hkey : keyOf cexReg (.Property 1) < keyOf cexReg (.Property 0) := by
    rw [String.lt_iff_toList_lt]
    decide
  have hle : decide (snippetsSort cexReg (.Property 1) (.Property 0) ≤ 0) = true := by
    rw [snippetsSort_of_lt hkey]
    rfl
  have hsorted : List.Pairwise
      (fun a b => decide (snippetsSort cexReg a b ≤ 0) = true)
      [SnippetRef.Property 1, SnippetRef.Property 0] := by
    refine List.pairwise_cons.2 ⟨?_, List.pairwise_singleton _ _⟩
    intro b hb
    rw [List.mem_singleton.1 hb]
    exact hle
  have hsort : sortSnippets cexReg [.Property 1, .Property 0] =
      [.Property 1, .Property 0] := List.mergeSort_of_sorted hsorted
  have hreg : (nest cexReg [.Property 1, .Property 0]).1 =
      (nestProps cexReg
        ([SnippetRef.Property 1, SnippetRef.Property 0].filterMap propIndex) []).1 := by
    show (nestProps cexReg
      ((sortSnippets cexReg [.Property 1, .Property 0]).filterMap propIndex) []).1 = _
    rw [hsort]
  have hrr : (nestProps cexReg
      ([SnippetRef.Property 1, SnippetRef.Property 0].filterMap propIndex) []).1 =
      cexReg := by decide
  have hdeps : ∀ i, depsOf cexReg i = [] := by
    intro i
    match i with
    | 0 => rfl
    | 1 => rfl
    | n + 2 =>
      show (cexReg.getD (n + 2) emptyNode).dependencies = []
      rw [List.getD_eq_getElem?_getD,
        List.getElem?_eq_none (show cexReg.length ≤ n + 2 by show 2 ≤ n + 2; omega)]
      rfl
  refine ⟨by decide, ?_, ?_⟩
  · show sortSnippets cexReg [.Property 1, .Property 0] = _
    exact hsort
  · rw [hreg, hrr]
    exact no_transGen_of_empty hdeps 0 1

end Emmet
